import Mathlib

/-!
Verification of the lead-enrichment pipeline core
(domain validation, CSV processing, email extraction/ranking,
icebreaker insights, and the batched enrichment orchestrator).

Definitions shallowly embed the TypeScript sources:
`src/agent/crawl.ts`, `src/agent/csvProcessor.ts`, `src/agent/emailExtractor.ts`,
`src/agent/icebreakerGenerator.ts`, `src/api/enrichment.ts`.
Strings are modelled as lists of characters (`String.data`); JavaScript
string lengths are code-unit counts, which agree with character counts on
the ASCII data these functions handle.
-/

namespace ColdEmail

/-! ## JS string primitives -/

/-- JS whitespace for `String.prototype.trim` (ASCII portion). -/
def jsIsWs (c : Char) : Bool :=
  c = ' ' || c = '\t' || c = '\n' || c = '\r' || c = '\x0b' || c = '\x0c'

/-- JS `trim()`: drop whitespace from both ends. -/
def jsTrim (l : List Char) : List Char :=
  ((l.dropWhile jsIsWs).reverse.dropWhile jsIsWs).reverse

/-- JS `split(sep)[0]` for a single-character separator. -/
def firstSeg (sep : Char) (l : List Char) : List Char :=
  l.takeWhile (fun c => c ≠ sep)

/-- JS `startsWith` on char lists. -/
def strStarts (pre l : List Char) : Bool :=
  pre.isPrefixOf l

/-- JS `includes`: substring containment (empty needle always matches). -/
def strIncl (needle : List Char) : List Char → Bool
  | [] => needle.isEmpty
  | c :: rest => needle.isPrefixOf (c :: rest) || strIncl needle rest

/-! ## Domain validator (src/agent/crawl.ts) -/

/-- `[a-z]` character class. -/
def isLowerAlpha (c : Char) : Bool := 'a' ≤ c && c ≤ 'z'

/-- `[a-z0-9]` character class. -/
def isAlnumLower (c : Char) : Bool := isLowerAlpha c || ('0' ≤ c && c ≤ '9')

/-- Strip a leading `http://` or `https://` (regex `^https?:\/\/`, replaced once). -/
def stripProtocol (l : List Char) : List Char :=
  if strStarts "http://".data l then l.drop 7
  else if strStarts "https://".data l then l.drop 8
  else l

/-- Strip a leading `www.` (regex `^www\.`, replaced once). -/
def stripWww (l : List Char) : List Char :=
  if strStarts "www.".data l then l.drop 4 else l

/-- The normalization prefix of `validateDomain`: trim, lowercase, strip
protocol and `www.`, then truncate at the first `/`, `?`, `#` and `:`. -/
def cleanDomain (l : List Char) : List Char :=
  firstSeg ':' (firstSeg '#' (firstSeg '?' (firstSeg '/'
    (stripWww (stripProtocol ((jsTrim l).map Char.toLower))))))

/-- One label of the strict domain regex: `[a-z0-9]([a-z0-9-]*[a-z0-9])?`. -/
def strictLabel : List Char → Bool
  | [] => false
  | c :: rest =>
    isAlnumLower c && rest.all (fun x => isAlnumLower x || x = '-')
      && (match rest.getLast? with
          | none => true
          | some x => isAlnumLower x)

/-- Full match of `^[a-z0-9]([a-z0-9-]*[a-z0-9])?(\.[a-z0-9]([a-z0-9-]*[a-z0-9])?)*\.[a-z]{2,}$`:
dot-separated labels (dots cannot occur inside a label, so the split is forced),
all but the last a strict label and the last `[a-z]{2,}`. -/
def strictFormat (l : List Char) : Bool :=
  let parts := l.splitOn '.'
  2 ≤ parts.length && parts.dropLast.all strictLabel
    && 2 ≤ (parts.getLastD []).length && (parts.getLastD []).all isLowerAlpha

/-- Full match of the lenient fallback `^[a-z0-9.-]+\.[a-z]{2,}$`: the final
`[a-z]{2,}` run must follow the last dot, and at least one class character
must precede that dot. -/
def lenientFormat (l : List Char) : Bool :=
  let parts := l.splitOn '.'
  let last := parts.getLastD []
  l.all (fun c => isAlnumLower c || c = '.' || c = '-')
    && 2 ≤ parts.length && 2 ≤ last.length && last.all isLowerAlpha
    && 2 + last.length ≤ l.length

def VALID_TLDS : List String := [
  "com", "org", "net", "edu", "gov", "mil", "int", "biz", "info", "pro", "name", "mobi", "app",
  "dev", "io", "co", "ai", "tech", "online", "site", "website", "web", "blog", "shop", "store",
  "cloud", "digital", "media", "agency", "studio", "design", "solutions", "services",
  "consulting", "software", "systems", "group", "team", "company", "business", "enterprise",
  "global", "world", "international", "network", "marketing", "email", "support", "clinic",
  "dental", "health", "healthcare", "medical", "hospital", "doctor", "law", "legal", "attorney",
  "lawyer", "accountant", "finance", "financial", "insurance", "bank", "capital", "fund",
  "invest", "money", "credit", "realty", "property", "properties", "estate", "house", "homes",
  "housing", "auto", "car", "cars", "bike", "travel", "flights", "hotel", "vacation",
  "restaurant", "cafe", "pizza", "food", "kitchen", "catering", "bar", "fitness", "yoga", "gym",
  "training", "coach", "academy", "education", "school", "photography", "photo", "gallery",
  "art", "music", "video", "film", "tv", "news", "press", "report", "review", "guide", "tips",
  "how", "wiki", "xyz", "top", "icu", "vip", "club", "live", "rocks", "fun", "zone", "space",
  "link", "click", "page", "one", "plus", "social", "chat", "community", "forum", "uk", "us",
  "ca", "au", "nz", "de", "fr", "it", "es", "nl", "be", "ch", "at", "se", "no", "dk", "fi", "pl",
  "cz", "ru", "ua", "jp", "cn", "kr", "in", "sg", "hk", "tw", "my", "ph", "th", "vn", "id", "br",
  "mx", "ar", "cl", "co", "pe", "za", "ae", "il", "tr", "ie", "pt", "gr", "hu", "ro", "bg", "hr",
  "sk", "si", "ee", "lv", "lt", "is", "lu", "mt", "cy"]

def MULTI_PART_TLDS : List String := [
  "co.uk", "org.uk", "me.uk", "ltd.uk", "plc.uk", "ac.uk", "gov.uk", "nhs.uk", "com.au",
  "net.au", "org.au", "edu.au", "gov.au", "asn.au", "id.au", "co.nz", "net.nz", "org.nz",
  "govt.nz", "ac.nz", "school.nz", "geek.nz", "com.br", "net.br", "org.br", "gov.br", "edu.br",
  "co.za", "net.za", "org.za", "gov.za", "edu.za", "com.mx", "net.mx", "org.mx", "gob.mx",
  "edu.mx", "co.jp", "ne.jp", "or.jp", "ac.jp", "go.jp", "com.cn", "net.cn", "org.cn", "gov.cn",
  "edu.cn", "co.in", "net.in", "org.in", "gov.in", "ac.in", "edu.in", "com.sg", "net.sg",
  "org.sg", "gov.sg", "edu.sg", "com.hk", "net.hk", "org.hk", "gov.hk", "edu.hk", "co.kr",
  "ne.kr", "or.kr", "go.kr", "ac.kr", "com.tw", "net.tw", "org.tw", "gov.tw", "edu.tw", "co.th",
  "in.th", "ac.th", "go.th", "or.th", "com.my", "net.my", "org.my", "gov.my", "edu.my", "com.ph",
  "net.ph", "org.ph", "gov.ph", "edu.ph", "co.id", "web.id", "or.id", "go.id", "ac.id", "com.vn",
  "net.vn", "org.vn", "gov.vn", "edu.vn", "com.ar", "net.ar", "org.ar", "gob.ar", "edu.ar",
  "com.co", "net.co", "org.co", "gov.co", "edu.co", "co.il", "net.il", "org.il", "gov.il",
  "ac.il", "com.tr", "net.tr", "org.tr", "gov.tr", "edu.tr", "co.ae", "net.ae", "org.ae",
  "gov.ae", "ac.ae", "com.ua", "net.ua", "org.ua", "gov.ua", "edu.ua", "com.pl", "net.pl",
  "org.pl", "gov.pl", "edu.pl", "co.de", "com.de", "com.es", "org.es", "gob.es", "edu.es",
  "com.fr", "asso.fr", "gouv.fr", "co.it", "com.it", "com.pt", "org.pt", "gov.pt", "edu.pt",
  "com.nl", "co.nl", "com.be", "co.be", "co.at", "or.at", "ac.at", "co.ch", "com.ch", "co.se",
  "com.se", "co.no", "com.no", "co.dk", "com.dk", "co.fi", "com.fi", "co.ie", "com.ie", "co.gr",
  "com.gr", "co.hu", "com.hu", "co.ro", "com.ro", "co.cz", "com.cz", "eu.com", "us.com",
  "uk.com", "de.com", "jpn.com", "br.com", "cn.com"]

structure DomainValidationResult where
  isValid : Bool
  domain : String
  tld : String
  error : Option String
deriving Repr, DecidableEq

/-- The classification part of `validateDomain`, producing
`(isValid, tld, error)`; the `domain` field of every return branch in the
source is the normalized `cleaned` string, assembled in `validateDomain`. -/
def validateDomainCore (cleaned : List Char) : Bool × String × Option String :=
  if cleaned.length < 3 then (false, "", some "Domain too short")
  else if !strictFormat cleaned && !lenientFormat cleaned then
    (false, "", some "Invalid domain format")
  else if strIncl "..".data cleaned || strIncl "--".data cleaned then
    (false, "", some "Invalid domain format (consecutive dots or hyphens)")
  else if cleaned.head? = some '-' || cleaned.getLast? = some '-' then
    (false, "", some "Domain cannot start or end with hyphen")
  else
    let parts := cleaned.splitOn '.'
    if parts.length < 2 then (false, "", some "No TLD found")
    else
      let tldChars := parts.getLastD []
      let tld := String.mk tldChars
      let multiTld := String.mk ((parts.getD (parts.length - 2) []) ++ '.' :: tldChars)
      if 3 ≤ parts.length && MULTI_PART_TLDS.contains multiTld then (true, multiTld, none)
      else if VALID_TLDS.contains tld then (true, tld, none)
      else if 2 ≤ tldChars.length && tldChars.length ≤ 10 && tldChars.all isLowerAlpha then
        (true, tld, none)
      else (false, tld, some ("Invalid or unrecognized TLD: ." ++ tld))

def validateDomain (input : String) : DomainValidationResult :=
  let cleaned := cleanDomain input.data
  let core := validateDomainCore cleaned
  { isValid := core.1, domain := String.mk cleaned, tld := core.2.1, error := core.2.2 }

/-! ### C2: idempotence of the normalized-domain projection -/

theorem char_toNat_ofNat_valid (n : Nat) (h1 : 97 ≤ n) (h2 : n ≤ 122) :
    (Char.ofNat n).toNat = n := by
  have hv : n.isValidChar := Or.inl (by omega)
  simp [Char.ofNat, hv, Char.ofNatAux, Char.toNat, UInt32.toNat]

theorem toLower_idem (c : Char) : Char.toLower (Char.toLower c) = Char.toLower c := by
  unfold Char.toLower
  by_cases h : c.toNat ≥ 65 ∧ c.toNat ≤ 90
  · simp only [h, and_self, if_pos]
    have hn : (Char.ofNat (c.toNat + 32)).toNat = c.toNat + 32 :=
      char_toNat_ofNat_valid _ (by omega) (by omega)
    rw [hn]
    have h2 : ¬(c.toNat + 32 ≥ 65 ∧ c.toNat + 32 ≤ 90) := by omega
    rw [if_neg h2]
  · simp [h]

theorem mem_firstSeg_ne {sep : Char} {l : List Char} {c : Char}
    (h : c ∈ firstSeg sep l) : c ≠ sep := by
  have := List.mem_takeWhile_imp h
  simpa using this

theorem mem_of_mem_firstSeg {sep : Char} {l : List Char} {c : Char}
    (h : c ∈ firstSeg sep l) : c ∈ l :=
  (List.takeWhile_sublist _).mem h

theorem firstSeg_eq_self {sep : Char} {l : List Char} (h : ∀ c ∈ l, c ≠ sep) :
    firstSeg sep l = l :=
  List.takeWhile_eq_self_iff.mpr (by simpa using h)

theorem mem_of_mem_stripProtocol {l : List Char} {c : Char}
    (h : c ∈ stripProtocol l) : c ∈ l := by
  unfold stripProtocol at h
  split at h
  · exact List.mem_of_mem_drop h
  · split at h
    · exact List.mem_of_mem_drop h
    · exact h

theorem mem_of_mem_stripWww {l : List Char} {c : Char}
    (h : c ∈ stripWww l) : c ∈ l := by
  unfold stripWww at h
  split at h
  · exact List.mem_of_mem_drop h
  · exact h

theorem strStarts_mem {pre l : List Char} (h : strStarts pre l = true) {c : Char}
    (hc : c ∈ pre) : c ∈ l := by
  have hp : pre <+: l := List.isPrefixOf_iff_prefix.mp h
  exact hp.sublist.mem hc

theorem stripProtocol_eq_self {l : List Char} (h : ':' ∉ l) : stripProtocol l = l := by
  unfold stripProtocol
  have h1 : ¬ strStarts "http://".data l = true := fun hs =>
    h (strStarts_mem hs (by decide))
  have h2 : ¬ strStarts "https://".data l = true := fun hs =>
    h (strStarts_mem hs (by decide))
  simp [h1, h2]

theorem stripWww_eq_self {l : List Char} (h : ¬ strStarts "www.".data l = true) :
    stripWww l = l := by
  unfold stripWww
  simp [h]

theorem mem_cleanDomain {l : List Char} {c : Char} (h : c ∈ cleanDomain l) :
    c ∈ (jsTrim l).map Char.toLower := by
  unfold cleanDomain at h
  exact mem_of_mem_stripProtocol (mem_of_mem_stripWww
    (mem_of_mem_firstSeg (mem_of_mem_firstSeg
      (mem_of_mem_firstSeg (mem_of_mem_firstSeg h)))))

theorem cleanDomain_no_colon {l : List Char} : ':' ∉ cleanDomain l := fun h =>
  mem_firstSeg_ne h rfl

theorem cleanDomain_no_hash {l : List Char} : '#' ∉ cleanDomain l := fun h =>
  mem_firstSeg_ne (mem_of_mem_firstSeg h) rfl

theorem cleanDomain_no_query {l : List Char} : '?' ∉ cleanDomain l := fun h =>
  mem_firstSeg_ne (mem_of_mem_firstSeg (mem_of_mem_firstSeg h)) rfl

theorem cleanDomain_no_slash {l : List Char} : '/' ∉ cleanDomain l := fun h =>
  mem_firstSeg_ne (mem_of_mem_firstSeg (mem_of_mem_firstSeg (mem_of_mem_firstSeg h))) rfl

theorem cleanDomain_lower {l : List Char} :
    (cleanDomain l).map Char.toLower = cleanDomain l := by
  have hmem : ∀ c ∈ cleanDomain l, Char.toLower c = c := by
    intro c hc
    obtain ⟨b, _, rfl⟩ := List.mem_map.mp (mem_cleanDomain hc)
    exact toLower_idem b
  calc (cleanDomain l).map Char.toLower = (cleanDomain l).map id :=
        List.map_congr_left hmem
    _ = cleanDomain l := List.map_id _

/-- Normalization is a no-op on an already-normalized domain that is trimmed
and does not begin with `www.`. -/
theorem cleanDomain_idem {x : List Char}
    (h1 : jsTrim (cleanDomain x) = cleanDomain x)
    (h2 : ¬ strStarts "www.".data (cleanDomain x) = true) :
    cleanDomain (cleanDomain x) = cleanDomain x := by
  have hS : firstSeg '/' (cleanDomain x) = cleanDomain x :=
    firstSeg_eq_self (fun c hc he => cleanDomain_no_slash (he ▸ hc))
  have hQ : firstSeg '?' (cleanDomain x) = cleanDomain x :=
    firstSeg_eq_self (fun c hc he => cleanDomain_no_query (he ▸ hc))
  have hH : firstSeg '#' (cleanDomain x) = cleanDomain x :=
    firstSeg_eq_self (fun c hc he => cleanDomain_no_hash (he ▸ hc))
  have hC : firstSeg ':' (cleanDomain x) = cleanDomain x :=
    firstSeg_eq_self (fun c hc he => cleanDomain_no_colon (he ▸ hc))
  conv_lhs => rw [cleanDomain]
  rw [h1, cleanDomain_lower, stripProtocol_eq_self cleanDomain_no_colon,
    stripWww_eq_self h2, hS, hQ, hH, hC]

/-- C2 counterexample: `validateDomain` is not idempotent on its normalized
domain projection. On `"www.www.com"` the first normalization strips only
one `www.` prefix, yielding domain `"www.com"`; re-validating that domain
strips the remaining `www.` and yields `"com"`. -/
theorem validateDomain_not_idem_counterexample :
    ¬ ((validateDomain ((validateDomain "www.www.com").domain)).domain
        = (validateDomain "www.www.com").domain) := by decide

/-- C2 (amended): the idempotence equation
`validateDomain(validateDomain(x).domain).domain = validateDomain(x).domain`
holds for every input `x` whose normalized domain is trimmed and does not
itself begin with `www.` (re-normalization strips a leading `www.` again and
re-trims, which is what the counterexample exploits). -/
theorem validateDomain_idem_amended (x : String)
    (h1 : jsTrim (validateDomain x).domain.data = (validateDomain x).domain.data)
    (h2 : ¬ strStarts "www.".data (validateDomain x).domain.data = true) :
    (validateDomain ((validateDomain x).domain)).domain = (validateDomain x).domain := by
  have h1' : jsTrim (cleanDomain x.data) = cleanDomain x.data := h1
  have h2' : ¬ strStarts "www.".data (cleanDomain x.data) = true := h2
  show String.mk (cleanDomain (cleanDomain x.data)) = String.mk (cleanDomain x.data)
  rw [cleanDomain_idem h1' h2']

/-- Witness for C2 (amended) at `x = "https://www.Acme.IO/contact"`, whose
normalized domain is `"acme.io"`. -/
theorem validateDomain_idem_amended_witness :
    (validateDomain ((validateDomain "https://www.Acme.IO/contact").domain)).domain
      = (validateDomain "https://www.Acme.IO/contact").domain :=
  validateDomain_idem_amended "https://www.Acme.IO/contact" (by decide) (by decide)

/-! ## Icebreaker insights (src/agent/icebreakerGenerator.ts) -/

/-- JS `content.split(/\n\n+/)`: the separator is a maximal run of at least
two newlines; `cur` holds the current (reversed) paragraph. -/
def splitParasAux : List Char → List Char → List (List Char)
  | [], cur => [cur.reverse]
  | '\n' :: '\n' :: rest, cur =>
    cur.reverse :: splitParasAux (rest.dropWhile (fun c => c = '\n')) []
  | c :: rest, cur => splitParasAux rest (c :: cur)
termination_by l _ => l.length
decreasing_by
  · have := (List.dropWhile_sublist (l := rest) (fun c => c = '\n')).length_le
    simp only [List.length_cons]
    omega
  · simp only [List.length_cons]
    omega

def splitParas (l : List Char) : List (List Char) := splitParasAux l []

/-- The paragraph-accumulation loop of `extractCompanyInsights`: stop before
the first paragraph that would push the accumulator past the budget,
otherwise append the paragraph and a blank line. -/
def accumParas (maxLength : Nat) : List (List Char) → List Char → List Char
  | [], acc => acc
  | p :: ps, acc =>
    if maxLength < (acc ++ p).length then acc
    else accumParas maxLength ps (acc ++ p ++ ['\n', '\n'])

def extractCompanyInsights (content : String) : String :=
  let maxLength := 3000
  if maxLength < content.data.length then
    let trimmedContent := accumParas maxLength (splitParas content.data) []
    if trimmedContent.length = 0 then String.mk (jsTrim (content.data.take maxLength))
    else String.mk (jsTrim trimmedContent)
  else String.mk (jsTrim content.data)

/-! ### C9 support lemmas -/

theorem jsTrim_length_le (l : List Char) : (jsTrim l).length ≤ l.length := by
  unfold jsTrim
  calc ((l.dropWhile jsIsWs).reverse.dropWhile jsIsWs).reverse.length
      = ((l.dropWhile jsIsWs).reverse.dropWhile jsIsWs).length := List.length_reverse _
    _ ≤ (l.dropWhile jsIsWs).reverse.length := (List.dropWhile_sublist _).length_le
    _ = (l.dropWhile jsIsWs).length := List.length_reverse _
    _ ≤ l.length := (List.dropWhile_sublist _).length_le

theorem dropWhile_all_ws {w : List Char} (hw : ∀ c ∈ w, jsIsWs c = true) :
    w.dropWhile jsIsWs = [] :=
  List.dropWhile_eq_nil_iff.mpr hw

/-- Trimming a string with an all-whitespace suffix bounds its length by the
prefix length. -/
theorem jsTrim_append_ws_length {pre w : List Char} (hw : ∀ c ∈ w, jsIsWs c = true) :
    (jsTrim (pre ++ w)).length ≤ pre.length := by
  unfold jsTrim
  rw [List.dropWhile_append]
  split
  · next hEmpty =>
    rw [dropWhile_all_ws hw]
    simp
  · next hne =>
    rw [List.reverse_append]
    rw [List.dropWhile_append]
    have hwrev : w.reverse.dropWhile jsIsWs = [] :=
      dropWhile_all_ws (fun c hc => hw c (List.mem_reverse.mp hc))
    rw [hwrev]
    simp only [List.isEmpty_nil, if_pos]
    calc ((pre.dropWhile jsIsWs).reverse.dropWhile jsIsWs).reverse.length
        = ((pre.dropWhile jsIsWs).reverse.dropWhile jsIsWs).length := List.length_reverse _
      _ ≤ (pre.dropWhile jsIsWs).reverse.length := (List.dropWhile_sublist _).length_le
      _ = (pre.dropWhile jsIsWs).length := List.length_reverse _
      _ ≤ pre.length := (List.dropWhile_sublist _).length_le

/-- Loop invariant: the accumulator result is empty or ends in the appended
blank line and stays within budget + 2. -/
theorem accumParas_shape (maxLength : Nat) (ps : List (List Char)) (acc : List Char)
    (hacc : acc = [] ∨ ∃ pre, acc = pre ++ ['\n', '\n'] ∧ acc.length ≤ maxLength + 2) :
    accumParas maxLength ps acc = acc
      ∨ ∃ pre, accumParas maxLength ps acc = pre ++ ['\n', '\n']
          ∧ (accumParas maxLength ps acc).length ≤ maxLength + 2 := by
  induction ps generalizing acc with
  | nil => exact Or.inl rfl
  | cons p ps ih =>
    unfold accumParas
    split
    · exact Or.inl rfl
    · next hle =>
      have hlen : acc.length + p.length ≤ maxLength := by
        simp only [not_lt, List.length_append] at hle
        omega
      rcases ih (acc ++ p ++ ['\n', '\n'])
          (Or.inr ⟨acc ++ p, by simp, by simp; omega⟩) with h | h
      · right
        refine ⟨acc ++ p, h, ?_⟩
        rw [h]
        simp
        omega
      · exact Or.inr h

/-- The accumulator output is the accumulator followed by some prefix of whole
paragraphs, each with a blank-line separator. -/
theorem accumParas_take (maxLength : Nat) (ps : List (List Char)) (acc : List Char) :
    ∃ k, accumParas maxLength ps acc
      = acc ++ ((ps.take k).map (fun p => p ++ ['\n', '\n'])).flatten := by
  induction ps generalizing acc with
  | nil => exact ⟨0, by simp [accumParas]⟩
  | cons p ps ih =>
    unfold accumParas
    split
    · exact ⟨0, by simp⟩
    · obtain ⟨k, hk⟩ := ih (acc ++ p ++ ['\n', '\n'])
      refine ⟨k + 1, ?_⟩
      simp only [List.take_succ_cons, List.map_cons, List.flatten_cons, ← List.append_assoc]
      exact hk

/-- The accumulator starting empty is empty iff the first paragraph alone
overflows the budget. -/
theorem accumParas_nil_iff (maxLength : Nat) (p : List Char) (ps : List (List Char)) :
    accumParas maxLength (p :: ps) [] = [] ↔ maxLength < p.length := by
  constructor
  · intro h
    by_contra hlt
    unfold accumParas at h
    rw [if_neg (by simpa using hlt)] at h
    rcases accumParas_shape maxLength ps ([] ++ p ++ ['\n', '\n'])
        (Or.inr ⟨p, by simp, by simp; omega⟩) with h2 | h2
    · rw [h] at h2
      simp at h2
    · obtain ⟨pre, hpre, _⟩ := h2
      rw [h] at hpre
      simp at hpre
  · intro h
    unfold accumParas
    rw [if_pos (by simpa using h)]

theorem splitParasAux_ne_nil (l cur : List Char) : splitParasAux l cur ≠ [] := by
  induction l, cur using splitParasAux.induct <;> simp_all [splitParasAux]

/-- C9: `extractCompanyInsights` returns at most 3000 characters; above the
budget it hard-truncates to 3000 characters exactly when the first paragraph
alone overflows the budget, and otherwise returns the trimmed concatenation
of a whole-paragraph prefix (paragraphs are never split). -/
theorem extractCompanyInsights_spec (content : String) :
    (extractCompanyInsights content).length ≤ 3000 ∧
    (3000 < content.data.length →
      (3000 < ((splitParas content.data).headD []).length →
        extractCompanyInsights content = String.mk (jsTrim (content.data.take 3000))) ∧
      (((splitParas content.data).headD []).length ≤ 3000 →
        ∃ k, extractCompanyInsights content
          = String.mk (jsTrim ((((splitParas content.data).take k).map
              (fun p => p ++ ['\n', '\n'])).flatten)))) := by
  have hwsnn : ∀ c ∈ (['\n', '\n'] : List Char), jsIsWs c = true := by decide
  have hlen : (extractCompanyInsights content).length ≤ 3000 := by
    simp only [extractCompanyInsights]
    split
    · split
      · next hzero =>
        show (jsTrim (content.data.take 3000)).length ≤ 3000
        calc (jsTrim (content.data.take 3000)).length
            ≤ (content.data.take 3000).length := jsTrim_length_le _
          _ ≤ 3000 := by simp
      · next hnonzero =>
        rcases accumParas_shape 3000 (splitParas content.data) [] (Or.inl rfl) with h | h
        · exact absurd (by rw [h]; rfl) hnonzero
        · obtain ⟨pre, hpre, hlen2⟩ := h
          show (jsTrim (accumParas 3000 (splitParas content.data) [])).length ≤ 3000
          rw [hpre]
          have h3 : (jsTrim (pre ++ ['\n', '\n'])).length ≤ pre.length :=
            jsTrim_append_ws_length hwsnn
          rw [hpre] at hlen2
          simp only [List.length_append, List.length_cons, List.length_nil] at hlen2
          omega
    · next hsmall =>
      show (jsTrim content.data).length ≤ 3000
      have := jsTrim_length_le content.data
      omega
  refine ⟨hlen, fun hbig => ⟨fun hfirst => ?_, fun hfirst => ?_⟩⟩
  · obtain ⟨p, ps, hps⟩ := List.exists_cons_of_ne_nil (splitParasAux_ne_nil content.data [])
    have hps' : splitParas content.data = p :: ps := hps
    rw [hps', List.headD_cons] at hfirst
    have hacc : accumParas 3000 (splitParas content.data) [] = [] := by
      rw [hps']
      exact (accumParas_nil_iff _ _ _).mpr hfirst
    simp only [extractCompanyInsights]
    rw [if_pos hbig, hacc]
    simp
  · obtain ⟨p, ps, hps⟩ := List.exists_cons_of_ne_nil (splitParasAux_ne_nil content.data [])
    have hps' : splitParas content.data = p :: ps := hps
    rw [hps', List.headD_cons] at hfirst
    have hacc : accumParas 3000 (splitParas content.data) [] ≠ [] := by
      rw [hps']
      intro h
      exact absurd ((accumParas_nil_iff _ _ _).mp h) (by omega)
    obtain ⟨k, hk⟩ := accumParas_take 3000 (splitParas content.data) []
    refine ⟨k, ?_⟩
    simp only [extractCompanyInsights]
    rw [if_pos hbig, if_neg (by simpa [List.length_eq_zero] using hacc)]
    rw [hk]
    simp

/-- Witness for C9 at a 3004-character content whose first paragraph is
`"ab"`: the over-budget, no-hard-truncation branch applies. -/
theorem extractCompanyInsights_spec_witness :
    3000 < (String.mk ('a' :: 'b' :: '\n' :: '\n' :: List.replicate 3000 'c')).data.length ∧
    ((splitParas (String.mk
        ('a' :: 'b' :: '\n' :: '\n' :: List.replicate 3000 'c')).data).headD []).length ≤ 3000 ∧
    ∃ k, extractCompanyInsights (String.mk ('a' :: 'b' :: '\n' :: '\n' :: List.replicate 3000 'c'))
      = String.mk (jsTrim ((((splitParas (String.mk
          ('a' :: 'b' :: '\n' :: '\n' :: List.replicate 3000 'c')).data).take k).map
            (fun p => p ++ ['\n', '\n'])).flatten)) := by
  have hbig : 3000 < (String.mk ('a' :: 'b' :: '\n' :: '\n' :: List.replicate 3000 'c')).data.length := by
    show 3000 < ('a' :: 'b' :: '\n' :: '\n' :: List.replicate 3000 'c').length
    simp only [List.length_cons, List.length_replicate]
    omega
  have hfirst : ((splitParas (String.mk
      ('a' :: 'b' :: '\n' :: '\n' :: List.replicate 3000 'c')).data).headD []).length ≤ 3000 := by
    show ((splitParasAux ('a' :: 'b' :: '\n' :: '\n' :: List.replicate 3000 'c') []).headD []).length ≤ 3000
    rw [splitParasAux, splitParasAux, splitParasAux]
    · simp only [List.headD_cons]
      decide
    all_goals intro _ h _
    all_goals exact absurd h (by decide)
  exact ⟨hbig, hfirst,
    ((extractCompanyInsights_spec
      (String.mk ('a' :: 'b' :: '\n' :: '\n' :: List.replicate 3000 'c'))).2 hbig).2 hfirst⟩

/-! ## Email extractor (src/agent/emailExtractor.ts)

The extraction regex is `/[a-zA-Z0-9._%+-]+@[a-zA-Z0-9.-]+\.[a-zA-Z]{2,}/g`.
Matching is embedded directly: at a given start position the greedy local-part
run must end exactly at an `@` (no local-part character can be an `@`), the
greedy domain run is then split by backtracking from the right at the largest
dot position followed by at least two letters, and the trailing letter run is
taken greedily. Successive matches resume at the end of the previous match. -/

def isLocalChar (c : Char) : Bool :=
  ('a' ≤ c && c ≤ 'z') || ('A' ≤ c && c ≤ 'Z') || ('0' ≤ c && c ≤ '9')
    || c = '.' || c = '_' || c = '%' || c = '+' || c = '-'

def isDomainChar (c : Char) : Bool :=
  ('a' ≤ c && c ≤ 'z') || ('A' ≤ c && c ≤ 'Z') || ('0' ≤ c && c ≤ '9')
    || c = '.' || c = '-'

def isAsciiAlpha (c : Char) : Bool := ('a' ≤ c && c ≤ 'z') || ('A' ≤ c && c ≤ 'Z')

/-- Backtracking search (largest split first) for `\.[a-zA-Z]{2,}` inside the
greedy domain run: returns the dot index and the greedy letter-run length. -/
def findSplit (dRun : List Char) : Nat → Option (Nat × Nat)
  | 0 => none
  | jm + 1 =>
    let tRun := (dRun.drop (jm + 2)).takeWhile isAsciiAlpha
    if dRun.get? (jm + 1) = some '.' && 2 ≤ tRun.length then some (jm + 1, tRun.length)
    else findSplit dRun jm

/-- Length of the email-regex match starting exactly at the head of `s`,
or `none` if no match starts here. -/
def matchEmailAt (s : List Char) : Option Nat :=
  let lRun := s.takeWhile isLocalChar
  if lRun.length = 0 then none
  else
    match s.get? lRun.length with
    | some '@' =>
      let rest := s.drop (lRun.length + 1)
      let dRun := rest.takeWhile isDomainChar
      match findSplit dRun (dRun.length - 1) with
      | some (j, tlen) => some (lRun.length + 1 + j + 1 + tlen)
      | none => none
    | _ => none

/-- All matches of the email regex in order (`String.prototype.match` with the
`g` flag): scan left to right, resuming after each match; the `Nat` argument
counts characters still to skip from the previous match. -/
def scanEmailsGo : List Char → Nat → List (List Char)
  | [], _ => []
  | _ :: rest, k + 1 => scanEmailsGo rest k
  | c :: rest, 0 =>
    match matchEmailAt (c :: rest) with
    | some n => (c :: rest).take n :: scanEmailsGo rest (n - 1)
    | none => scanEmailsGo rest 0

def scanEmails (l : List Char) : List (List Char) := scanEmailsGo l 0

/-- `RegExp.prototype.test` of the same pattern (`containsEmail` in
src/api/enrichment.ts). -/
def hasEmailMatch : List Char → Bool
  | [] => false
  | c :: rest => (matchEmailAt (c :: rest)).isSome || hasEmailMatch rest

def containsEmail (content : String) : Bool := hasEmailMatch content.data

/-- `[...new Set(matches)]`: first occurrences in insertion order. -/
def dedupSeen : List (List Char) → List (List Char) → List (List Char)
  | [], _ => []
  | x :: xs, seen =>
    if seen.contains x then dedupSeen xs seen else x :: dedupSeen xs (x :: seen)

def dedupKeepFirst (l : List (List Char)) : List (List Char) := dedupSeen l []

def genericPrefixes : List (List Char) :=
  ["noreply", "no-reply", "donotreply", "do-not-reply", "mailer-daemon", "postmaster",
   "webmaster", "example", "test", "demo", "sample"].map String.data

def isGenericEmail (email : List Char) : Bool :=
  let localPart := (email.takeWhile (fun c => c ≠ '@')).map Char.toLower
  genericPrefixes.any (fun p => strIncl p localPart)

/-- Full anchored match of `^[a-zA-Z0-9._%+-]+@[a-zA-Z0-9.-]+\.[a-zA-Z]{2,}$`:
the split must be at the last dot, with a nonempty domain part before it and
at least two letters (and nothing else) after it. -/
def strictEmailMatch (l : List Char) : Bool :=
  let lRun := l.takeWhile isLocalChar
  if lRun.length = 0 then false
  else
    match l.get? lRun.length with
    | some '@' =>
      let rest := l.drop (lRun.length + 1)
      let tailRun := rest.reverse.takeWhile (fun c => c ≠ '.')
      if tailRun.length = rest.length then false
      else
        1 ≤ rest.length - tailRun.length - 1
          && (rest.take (rest.length - tailRun.length - 1)).all isDomainChar
          && 2 ≤ tailRun.length && tailRun.all isAsciiAlpha
    | _ => false

def isValidEmailFormat (email : List Char) : Bool :=
  strictEmailMatch email && email.length ≤ 254
    && (email.takeWhile (fun c => c ≠ '@')).length ≤ 64

def extractEmailsFromContent (content : String) : List String :=
  (((dedupKeepFirst (scanEmails content.data)).filter
      (fun e => !isGenericEmail e)).filter isValidEmailFormat).map String.mk

/-! ### C7 support lemmas -/

theorem dedupSeen_not_mem {l seen : List (List Char)} {x : List Char}
    (hx : seen.contains x = true) : x ∉ dedupSeen l seen := by
  induction l generalizing seen with
  | nil => simp [dedupSeen]
  | cons y ys ih =>
    unfold dedupSeen
    split
    · exact ih hx
    · next hy =>
      intro hmem
      rcases List.mem_cons.mp hmem with rfl | hmem
      · rw [hx] at hy
        exact hy rfl
      · have hxs : x ∈ seen := by simpa using hx
        exact ih (by simp [hxs]) hmem

theorem dedupSeen_nodup (l : List (List Char)) (seen : List (List Char)) :
    (dedupSeen l seen).Nodup := by
  induction l generalizing seen with
  | nil => simp [dedupSeen]
  | cons y ys ih =>
    unfold dedupSeen
    split
    · exact ih _
    · exact List.nodup_cons.mpr ⟨dedupSeen_not_mem (by simp), ih _⟩

theorem string_mk_injective : Function.Injective String.mk := fun _ _ h =>
  congrArg String.data h

/-- C7: `extractEmailsFromContent` returns exactly the deduplicated regex
matches that are not generic-role addresses and pass the strict format and
length bounds, without duplicates; in particular mixed content keeps
`sales@acme.com` and drops `noreply@acme.com`. -/
theorem extractEmailsFromContent_spec :
    (∀ content e : String,
      e ∈ extractEmailsFromContent content ↔
        (e.data ∈ dedupKeepFirst (scanEmails content.data)
          ∧ isGenericEmail e.data = false ∧ isValidEmailFormat e.data = true)) ∧
    (∀ content : String, (extractEmailsFromContent content).Nodup) ∧
    extractEmailsFromContent "Contact us: noreply@acme.com or sales@acme.com."
      = ["sales@acme.com"] := by
  refine ⟨fun content e => ?_, fun content => ?_, by decide⟩
  · unfold extractEmailsFromContent
    constructor
    · intro h
      obtain ⟨d, hd, rfl⟩ := List.mem_map.mp h
      simp only [List.mem_filter, Bool.not_eq_true'] at hd
      exact ⟨hd.1.1, hd.1.2, hd.2⟩
    · intro ⟨h1, h2, h3⟩
      refine List.mem_map.mpr ⟨e.data, ?_, rfl⟩
      simp only [List.mem_filter, Bool.not_eq_true']
      exact ⟨⟨h1, h2⟩, h3⟩
  · exact ((dedupSeen_nodup _ _).filter _ |>.filter _).map string_mk_injective

/-! ## Email ranking (src/agent/emailExtractor.ts, rankEmails) -/

def personalPatterns : List (List Char) :=
  ["hello", "hi", "info", "contact", "sales", "team"].map String.data

/-- JS `s.replace(/\.[^.]+$/, '')`: drop the last dot and everything after it,
provided at least one character follows the last dot (i.e. the pattern
matches); otherwise leave the string unchanged. -/
def stripLastTldSeg (l : List Char) : List Char :=
  let tailRun := l.reverse.takeWhile (fun c => c ≠ '.')
  if tailRun.length = l.length then l
  else if tailRun.length = 0 then l
  else l.take (l.length - tailRun.length - 1)

/-- `/^[a-z]+\.[a-z]+$/` -/
def isFirstDotLast (l : List Char) : Bool :=
  let a := l.takeWhile isLowerAlpha
  1 ≤ a.length && l.get? a.length = some '.'
    && 1 ≤ (l.drop (a.length + 1)).length && (l.drop (a.length + 1)).all isLowerAlpha

def calculateEmailScore (email domain : List Char) : Nat :=
  let emailLower := email.map Char.toLower
  let localPart := emailLower.takeWhile (fun c => c ≠ '@')
  let emailDomain := (emailLower.drop (localPart.length + 1)).takeWhile (fun c => c ≠ '@')
  let score := 0
  let score := if strIncl domain emailDomain || strIncl (stripLastTldSeg emailDomain) domain
    then score + 50 else score
  let score := if personalPatterns.any (fun p => strIncl p localPart)
    then score + 20 else score
  let score := if localPart.length < 15 then score + 10 else score
  let score := if isFirstDotLast localPart
      || (4 ≤ localPart.length && localPart.length ≤ 12 && localPart.all isLowerAlpha)
    then score + 15 else score
  score

/-- Insert into a descending-by-score list, after all entries with an equal or
higher score (ECMAScript `Array.prototype.sort` is stable). -/
def insertByScore (x : List Char × Nat) : List (List Char × Nat) → List (List Char × Nat)
  | [] => [x]
  | y :: ys => if x.2 ≤ y.2 then y :: insertByScore x ys else x :: y :: ys

def sortByScoreDesc (l : List (List Char × Nat)) : List (List Char × Nat) :=
  l.foldl (fun acc x => insertByScore x acc) []

def rankEmails (emails : List String) (domain : String) : List String :=
  let domainBase := (stripWww domain.data).map Char.toLower
  (sortByScoreDesc (emails.map (fun e => (e.data, calculateEmailScore e.data domainBase)))).map
    (fun p => String.mk p.1)

/-- The score a candidate receives inside `rankEmails emails domain`. -/
def rankScore (domain e : String) : Nat :=
  calculateEmailScore e.data ((stripWww domain.data).map Char.toLower)

/-- The scoring rule exactly as the specification words it: four independent
additive bonuses. -/
def specEmailScore (email domain : List Char) : Nat :=
  let emailLower := email.map Char.toLower
  let localPart := emailLower.takeWhile (fun c => c ≠ '@')
  let emailDomain := (emailLower.drop (localPart.length + 1)).takeWhile (fun c => c ≠ '@')
  (if strIncl domain emailDomain || strIncl (stripLastTldSeg emailDomain) domain
    then 50 else 0)
  + (if personalPatterns.any (fun p => strIncl p localPart) then 20 else 0)
  + (if localPart.length < 15 then 10 else 0)
  + (if isFirstDotLast localPart
      || (4 ≤ localPart.length && localPart.length ≤ 12 && localPart.all isLowerAlpha)
    then 15 else 0)

/-! ### C6 support lemmas -/

theorem calculateEmailScore_eq_spec (email domain : List Char) :
    calculateEmailScore email domain = specEmailScore email domain := by
  unfold calculateEmailScore specEmailScore
  dsimp only
  split <;> split <;> split <;> split <;> omega

theorem insertByScore_perm (x : List Char × Nat) (l : List (List Char × Nat)) :
    List.Perm (insertByScore x l) (x :: l) := by
  induction l with
  | nil => rfl
  | cons y ys ih =>
    unfold insertByScore
    split
    · exact (ih.cons y).trans (List.Perm.swap x y ys)
    · rfl

theorem sortByScoreDesc_perm (l : List (List Char × Nat)) : List.Perm (sortByScoreDesc l) l := by
  suffices h : ∀ acc, List.Perm (l.foldl (fun acc x => insertByScore x acc) acc) (acc ++ l) by
    simpa using h []
  induction l with
  | nil => simp
  | cons x xs ih =>
    intro acc
    have h1 : List.Perm (xs.foldl (fun acc x => insertByScore x acc) (insertByScore x acc))
        (insertByScore x acc ++ xs) := ih _
    have h2 : List.Perm (insertByScore x acc ++ xs) ((x :: acc) ++ xs) :=
      (insertByScore_perm x acc).append_right xs
    have h3 : List.Perm ((x :: acc) ++ xs) (acc ++ x :: xs) := List.perm_middle.symm
    exact (h1.trans h2).trans h3

/-- Descending sortedness predicate on score pairs. -/
def SortedDesc (l : List (List Char × Nat)) : Prop :=
  l.Pairwise (fun a b => b.2 ≤ a.2)

theorem insertByScore_sorted {x : List Char × Nat} {l : List (List Char × Nat)}
    (hl : SortedDesc l) : SortedDesc (insertByScore x l) := by
  induction l with
  | nil => simp [insertByScore, SortedDesc]
  | cons y ys ih =>
    unfold insertByScore
    rcases List.pairwise_cons.mp hl with ⟨hy, hys⟩
    split
    · next hxy =>
      refine List.pairwise_cons.mpr ⟨?_, ih hys⟩
      intro z hz
      rcases List.mem_cons.mp ((insertByScore_perm x ys).mem_iff.mp hz) with rfl | hz
      · exact hxy
      · exact hy z hz
    · next hxy =>
      refine List.pairwise_cons.mpr ⟨?_, hl⟩
      intro z hz
      rcases List.mem_cons.mp hz with rfl | hz
      · omega
      · exact le_trans (hy z hz) (by omega)

theorem sortByScoreDesc_sorted (l : List (List Char × Nat)) :
    SortedDesc (sortByScoreDesc l) := by
  suffices h : ∀ acc, SortedDesc acc →
      SortedDesc (l.foldl (fun acc x => insertByScore x acc) acc) by
    exact h [] (by simp [SortedDesc])
  induction l with
  | nil => exact fun acc h => h
  | cons x xs ih => exact fun acc h => ih _ (insertByScore_sorted h)

theorem insertByScore_filter_eq {x : List Char × Nat} {l : List (List Char × Nat)} {s : Nat}
    (hl : SortedDesc l) (hx : x.2 = s) :
    (insertByScore x l).filter (fun p => p.2 = s)
      = l.filter (fun p => p.2 = s) ++ [x] := by
  induction l with
  | nil => simp [insertByScore, hx]
  | cons y ys ih =>
    rcases List.pairwise_cons.mp hl with ⟨hy, hys⟩
    unfold insertByScore
    split
    · next hxy =>
      simp only [List.filter_cons]
      split <;> simp [ih hys]
    · next hxy =>
      have hyne : ¬ (y.2 = s) := by omega
      have hysnil : ys.filter (fun p => p.2 = s) = [] := by
        refine List.filter_eq_nil_iff.mpr ?_
        intro z hz
        have := hy z hz
        simp
        omega
      simp [List.filter_cons, hx, hyne, hysnil]

theorem insertByScore_filter_ne {x : List Char × Nat} {l : List (List Char × Nat)} {s : Nat}
    (hx : ¬ (x.2 = s)) :
    (insertByScore x l).filter (fun p => p.2 = s) = l.filter (fun p => p.2 = s) := by
  induction l with
  | nil => simp [insertByScore, hx]
  | cons y ys ih =>
    unfold insertByScore
    split
    · simp only [List.filter_cons]
      split <;> simp [ih]
    · simp [List.filter_cons, hx]

theorem sortByScoreDesc_filter (l : List (List Char × Nat)) (s : Nat) :
    (sortByScoreDesc l).filter (fun p => p.2 = s) = l.filter (fun p => p.2 = s) := by
  suffices h : ∀ acc, SortedDesc acc →
      (l.foldl (fun acc x => insertByScore x acc) acc).filter (fun p => p.2 = s)
        = acc.filter (fun p => p.2 = s) ++ l.filter (fun p => p.2 = s) by
    simpa using h [] (by simp [SortedDesc])
  induction l with
  | nil => simp
  | cons x xs ih =>
    intro acc hacc
    by_cases hx : x.2 = s
    · calc ((x :: xs).foldl (fun acc x => insertByScore x acc) acc).filter (fun p => p.2 = s)
          = (xs.foldl (fun acc x => insertByScore x acc)
              (insertByScore x acc)).filter (fun p => p.2 = s) := rfl
        _ = (insertByScore x acc).filter (fun p => p.2 = s)
              ++ xs.filter (fun p => p.2 = s) := ih _ (insertByScore_sorted hacc)
        _ = (acc.filter (fun p => p.2 = s) ++ [x]) ++ xs.filter (fun p => p.2 = s) := by
              rw [insertByScore_filter_eq hacc hx]
        _ = acc.filter (fun p => p.2 = s) ++ (x :: xs).filter (fun p => p.2 = s) := by
              rw [List.filter_cons_of_pos (by simpa using hx)]
              simp
    · calc ((x :: xs).foldl (fun acc x => insertByScore x acc) acc).filter (fun p => p.2 = s)
          = (insertByScore x acc).filter (fun p => p.2 = s)
              ++ xs.filter (fun p => p.2 = s) := ih _ (insertByScore_sorted hacc)
        _ = acc.filter (fun p => p.2 = s) ++ xs.filter (fun p => p.2 = s) := by
              rw [insertByScore_filter_ne hx]
        _ = acc.filter (fun p => p.2 = s) ++ (x :: xs).filter (fun p => p.2 = s) := by
              rw [List.filter_cons_of_neg (by simpa using hx)]

theorem string_mk_data (s : String) : String.mk s.data = s := rfl

/-- C6: `rankEmails` scores candidates by the four additive bonuses of the
specification, returns a permutation of its input sorted by non-increasing
score with ties kept in insertion order (equal-score candidates filter to the
same subsequence as in the input), and ranks `jane.doe@acme.com` above
`info@other.com` for target domain `acme.com`. -/
theorem rankEmails_spec :
    (∀ email domain : List Char,
      calculateEmailScore email domain = specEmailScore email domain) ∧
    (∀ emails domain, List.Perm (rankEmails emails domain) emails) ∧
    (∀ emails domain,
      ((rankEmails emails domain).map (rankScore domain)).Pairwise (fun a b => b ≤ a)) ∧
    (∀ emails domain s,
      (rankEmails emails domain).filter (fun e => rankScore domain e = s)
        = emails.filter (fun e => rankScore domain e = s)) ∧
    rankEmails ["info@other.com", "jane.doe@acme.com"] "acme.com"
      = ["jane.doe@acme.com", "info@other.com"] := by
  have hpairmem : ∀ (emails : List String) (domain : String) p,
      p ∈ sortByScoreDesc (emails.map
        (fun e => (e.data, calculateEmailScore e.data ((stripWww domain.data).map Char.toLower))))
      → p.2 = calculateEmailScore p.1 ((stripWww domain.data).map Char.toLower) := by
    intro emails domain p hp
    have := (sortByScoreDesc_perm _).mem_iff.mp hp
    obtain ⟨e, _, rfl⟩ := List.mem_map.mp this
    rfl
  refine ⟨calculateEmailScore_eq_spec, fun emails domain => ?_, fun emails domain => ?_,
    fun emails domain s => ?_, by decide⟩
  · have h1 : List.Perm
        ((sortByScoreDesc (emails.map
          (fun e => (e.data, calculateEmailScore e.data
            ((stripWww domain.data).map Char.toLower))))).map (fun p => String.mk p.1))
        ((emails.map (fun e => (e.data, calculateEmailScore e.data
            ((stripWww domain.data).map Char.toLower)))).map (fun p => String.mk p.1)) :=
      (sortByScoreDesc_perm _).map _
    have h2 : (emails.map (fun e => (e.data, calculateEmailScore e.data
        ((stripWww domain.data).map Char.toLower)))).map (fun p => String.mk p.1) = emails := by
      rw [List.map_map]
      exact List.map_id _
    show List.Perm ((sortByScoreDesc (emails.map
        (fun e => (e.data, calculateEmailScore e.data
          ((stripWww domain.data).map Char.toLower))))).map (fun p => String.mk p.1)) emails
    exact h1.trans (by rw [h2])
  · unfold rankEmails
    rw [List.map_map]
    have hsorted := sortByScoreDesc_sorted (emails.map
      (fun e => (e.data, calculateEmailScore e.data ((stripWww domain.data).map Char.toLower))))
    rw [List.pairwise_map]
    refine List.Pairwise.imp_of_mem ?_ hsorted
    intro a b ha hb hab
    have ha2 := hpairmem emails domain a ha
    have hb2 := hpairmem emails domain b hb
    show rankScore domain (String.mk b.1) ≤ rankScore domain (String.mk a.1)
    unfold rankScore
    rw [← ha2, ← hb2]
    exact hab
  · unfold rankEmails
    rw [List.filter_map]
    have hcongr : ∀ p ∈ sortByScoreDesc (emails.map
        (fun e => (e.data, calculateEmailScore e.data
          ((stripWww domain.data).map Char.toLower)))),
        ((fun e => decide (rankScore domain e = s)) ∘ (fun p => String.mk p.1)) p
          = decide (p.2 = s) := by
      intro p hp
      have := hpairmem emails domain p hp
      simp only [Function.comp_apply]
      show decide (rankScore domain (String.mk p.1) = s) = decide (p.2 = s)
      unfold rankScore
      rw [← this]
    rw [List.filter_congr hcongr, sortByScoreDesc_filter, List.filter_map]
    have hcongr2 : ∀ e ∈ emails,
        ((fun p : List Char × Nat => decide (p.2 = s)) ∘ (fun e : String =>
          (e.data, calculateEmailScore e.data ((stripWww domain.data).map Char.toLower)))) e
          = decide (rankScore domain e = s) := fun e _ => rfl
    rw [List.filter_congr hcongr2, List.map_map]
    have : ((fun p : List Char × Nat => String.mk p.1) ∘ (fun e : String =>
        (e.data, calculateEmailScore e.data ((stripWww domain.data).map Char.toLower))))
        = fun e => e := by
      funext e
      rfl
    rw [this, List.map_id']


structure DomainValidation where
  isValid : Bool
  domain : String
  tld : String
  error : Option String
deriving Repr, DecidableEq

inductive EnrichmentStatus where
  | pending | processing | completed | failed | skipped
deriving Repr, DecidableEq

structure EnrichedLead where
  website : String
  company : Option String
  name : Option String
  extraFields : List (String × String)
  email : Option String
  icebreaker : Option String
  enrichmentStatus : EnrichmentStatus
  errorMessage : Option String
  domainValidation : Option DomainValidation
deriving Repr, DecidableEq

/-- JS truthiness of `l.domainValidation?.isValid`. -/
def dvIsValid : Option DomainValidation → Bool
  | none => false
  | some dv => dv.isValid

/-- JS truthiness of an optional string (`undefined` and `""` are falsy). -/
def optStrTruthy : Option String → Bool
  | none => false
  | some s => s ≠ ""

/-! ## getEnrichmentStats (src/agent/csvProcessor.ts) -/

structure EnrichmentStats where
  total : Nat
  pending : Nat
  processing : Nat
  completed : Nat
  failed : Nat
  skipped : Nat
  withEmail : Nat
  withIcebreaker : Nat
  validDomains : Nat
  invalidDomains : Nat
deriving Repr, DecidableEq

def getEnrichmentStats (leads : List EnrichedLead) : EnrichmentStats where
  total := leads.length
  pending := (leads.filter (fun l => l.enrichmentStatus = .pending)).length
  processing := (leads.filter (fun l => l.enrichmentStatus = .processing)).length
  completed := (leads.filter (fun l => l.enrichmentStatus = .completed)).length
  failed := (leads.filter (fun l => l.enrichmentStatus = .failed)).length
  skipped := (leads.filter (fun l => l.enrichmentStatus = .skipped)).length
  withEmail := (leads.filter (fun l => optStrTruthy l.email)).length
  withIcebreaker := (leads.filter (fun l => optStrTruthy l.icebreaker)).length
  validDomains := (leads.filter (fun l => dvIsValid l.domainValidation)).length
  invalidDomains := (leads.filter (fun l => !dvIsValid l.domainValidation)).length

/-- C10: `getEnrichmentStats` partitions the lead list: the five status
counts sum to the total, and valid plus invalid domain counts equal the
total. -/
theorem getEnrichmentStats_partition (leads : List EnrichedLead) :
    (getEnrichmentStats leads).pending + (getEnrichmentStats leads).processing
      + (getEnrichmentStats leads).completed + (getEnrichmentStats leads).failed
      + (getEnrichmentStats leads).skipped = (getEnrichmentStats leads).total
    ∧ (getEnrichmentStats leads).validDomains + (getEnrichmentStats leads).invalidDomains
      = (getEnrichmentStats leads).total := by
  simp only [getEnrichmentStats]
  induction leads with
  | nil => simp
  | cons l rest ih =>
    obtain ⟨ih1, ih2⟩ := ih
    constructor
    · simp only [List.filter_cons, List.length_cons]
      cases h : l.enrichmentStatus <;> simp_all <;> omega
    · simp only [List.filter_cons, List.length_cons]
      cases h : dvIsValid l.domainValidation <;> simp_all <;> omega

/-! ## Enrichment orchestrator (src/api/enrichment.ts)

External I/O (the backend `scrape`, `extract-emails` and `generate-icebreaker`
endpoints, and the platform `new URL` parser used by `extractDomain`) is
modelled as an explicit environment of oracles. A thrown/rejected call is an
`Except.error` carrying the error message. Each per-lead computation also
produces the list of network calls it makes, in order. -/

structure ScrapeResult where
  success : Bool
  url : String
  markdown : Option String
  title : Option String
  description : Option String
  error : Option String
deriving Repr, DecidableEq

inductive Confidence where
  | high | medium | low
deriving Repr, DecidableEq

structure EmailExtractionResult where
  success : Bool
  emails : List String
  primaryEmail : Option String
  confidence : Confidence
  inputTokens : Nat
  outputTokens : Nat
  error : Option String
deriving Repr, DecidableEq

structure IcebreakerResult where
  success : Bool
  icebreaker : String
  inputTokens : Nat
  outputTokens : Nat
  error : Option String
deriving Repr, DecidableEq

structure EnrichmentResult where
  lead : EnrichedLead
  scrapeResult : Option ScrapeResult
  emailResult : Option EmailExtractionResult
  icebreakerResult : Option IcebreakerResult
deriving Repr, DecidableEq

structure EnrichmentConfig where
  maxConcurrency : Nat
  retryAttempts : Nat
  includeIcebreaker : Bool
  icebreakerTone : String
deriving Repr, DecidableEq

inductive NetCall where
  | scrape (url : String)
  | extractEmails
  | generateIcebreaker
deriving Repr, DecidableEq

structure Env where
  scrape : String → Except String ScrapeResult
  extractEmails : String → String → Except String EmailExtractionResult
  generateIcebreaker : String → Option String → String → String → Except String IcebreakerResult
  urlHostname : String → Option String

/-- `normalizeUrl` (src/agent/crawl.ts): trim, lowercase, drop trailing
slashes, default the protocol to `https://`. -/
def normalizeUrl (url : String) : String :=
  let normalized := String.mk (((jsTrim url.data).map Char.toLower).reverse.dropWhile
    (fun c => c = '/') |>.reverse)
  if strStarts "http://".data normalized.data || strStarts "https://".data normalized.data
  then normalized
  else "https://" ++ normalized

/-- `extractDomain` (src/agent/crawl.ts): hostname of the normalized URL with
a leading `www.` stripped; on a URL-parse failure return the input unchanged.
The platform URL parser is the `urlHostname` oracle. -/
def extractDomain (urlHostname : String → Option String) (url : String) : String :=
  match urlHostname (normalizeUrl url) with
  | some h => String.mk (stripWww h.data)
  | none => url

/-- `result.success && result.markdown && containsEmail(result.markdown)`. -/
def scrapeGoodEmail (r : ScrapeResult) : Bool :=
  r.success && (match r.markdown with
    | some m => m ≠ "" && containsEmail m
    | none => false)

def contactPaths : List String := ["/contact", "/contact-us", "/about"]

/-- `baseUrl.replace(/\/$/, '')`: drop a single trailing slash. -/
def dropOneTrailingSlash (s : String) : String :=
  match s.data.getLast? with
  | some '/' => String.mk s.data.dropLast
  | _ => s

/-- The contact-path loop of `scrapeForContact`: a thrown scrape is caught and
the loop continues; the first success whose markdown contains an email is
returned. -/
def tryContactPaths (env : Env) (normalizedUrl : String) :
    List String → List NetCall × Option ScrapeResult
  | [] => ([], none)
  | path :: rest =>
    let contactUrl := normalizedUrl ++ path
    match env.scrape contactUrl with
    | .error _ =>
      let pr := tryContactPaths env normalizedUrl rest
      (NetCall.scrape contactUrl :: pr.1, pr.2)
    | .ok result =>
      if scrapeGoodEmail result then ([NetCall.scrape contactUrl], some result)
      else
        let pr := tryContactPaths env normalizedUrl rest
        (NetCall.scrape contactUrl :: pr.1, pr.2)

/-- `scrapeForContact`: main page first; on a main-page throw the error
propagates; if the main page yields no email-bearing markdown (including main
scrape failure) the contact paths are tried; otherwise the main result —
whatever it was — is returned. -/
def scrapeForContact (env : Env) (baseUrl : String) :
    List NetCall × Except String ScrapeResult :=
  match env.scrape baseUrl with
  | .error e => ([NetCall.scrape baseUrl], .error e)
  | .ok mainResult =>
    if scrapeGoodEmail mainResult then ([NetCall.scrape baseUrl], .ok mainResult)
    else
      let normalizedUrl := dropOneTrailingSlash baseUrl
      let pr := tryContactPaths env normalizedUrl contactPaths
      (NetCall.scrape baseUrl :: pr.1,
        .ok (match pr.2 with | some result => result | none => mainResult))

structure EnrichOptions where
  generateIcebreaker : Bool
  icebreakerTone : Option String
deriving Repr, DecidableEq

/-- The scrape-failure message: `scrapeResult.error || 'Failed to scrape website'`. -/
def scrapeFailMsg (e : Option String) : String :=
  match e with
  | some s => if s = "" then "Failed to scrape website" else s
  | none => "Failed to scrape website"

/-- `enrichLead`: per-lead enrichment, returning the network calls made and
the `EnrichmentResult`. Invalid-domain leads return `skipped` before any
call; a thrown error anywhere in the body is caught and recorded as `failed`
with the error message. -/
def enrichLead (env : Env) (lead : EnrichedLead) (options : EnrichOptions) :
    List NetCall × EnrichmentResult :=
  let domain := extractDomain env.urlHostname lead.website
  if !dvIsValid lead.domainValidation then
    ([], { lead := { lead with enrichmentStatus := .skipped },
           scrapeResult := none, emailResult := none, icebreakerResult := none })
  else
    match scrapeForContact env lead.website with
    | (t, .error e) =>
      (t, { lead := { lead with enrichmentStatus := .failed, errorMessage := some e },
            scrapeResult := none, emailResult := none, icebreakerResult := none })
    | (t, .ok scrapeResult) =>
      if !(scrapeResult.success && optStrTruthy scrapeResult.markdown) then
        let failedLead := { lead with
          enrichmentStatus := EnrichmentStatus.failed,
          errorMessage := some (scrapeFailMsg scrapeResult.error) }
        (t, { lead := failedLead,
              scrapeResult := some scrapeResult, emailResult := none,
              icebreakerResult := none })
      else
        let markdown := scrapeResult.markdown.getD ""
        match env.extractEmails markdown domain with
        | .error e =>
          (t ++ [NetCall.extractEmails],
           { lead := { lead with enrichmentStatus := .failed, errorMessage := some e },
             scrapeResult := some scrapeResult, emailResult := none,
             icebreakerResult := none })
        | .ok emailResult =>
          let lead1 := if emailResult.success && optStrTruthy emailResult.primaryEmail
            then { lead with email := emailResult.primaryEmail } else lead
          if options.generateIcebreaker && optStrTruthy scrapeResult.markdown then
            match env.generateIcebreaker markdown lead.company domain
                (options.icebreakerTone.getD "professional") with
            | .error e =>
              (t ++ [NetCall.extractEmails, NetCall.generateIcebreaker],
               { lead := { lead1 with enrichmentStatus := .failed, errorMessage := some e },
                 scrapeResult := some scrapeResult, emailResult := some emailResult,
                 icebreakerResult := none })
            | .ok ib =>
              let lead2 := if ib.success && ib.icebreaker ≠ ""
                then { lead1 with icebreaker := some ib.icebreaker } else lead1
              (t ++ [NetCall.extractEmails, NetCall.generateIcebreaker],
               { lead := { lead2 with enrichmentStatus := .completed },
                 scrapeResult := some scrapeResult, emailResult := some emailResult,
                 icebreakerResult := some ib })
          else
            (t ++ [NetCall.extractEmails],
             { lead := { lead1 with enrichmentStatus := .completed },
               scrapeResult := some scrapeResult, emailResult := some emailResult,
               icebreakerResult := none })

/-- Phase-1 options: `enrichLead(lead, { generateIcebreaker: false })`. -/
def phase1Options : EnrichOptions := { generateIcebreaker := false, icebreakerTone := none }

/-- The batching loop `for (let i = 0; i < n; i += maxConcurrency)` with
`slice(i, i + maxConcurrency)`. A non-positive `maxConcurrency` loops forever
in JS; it is modelled as producing no batches and is excluded by the claims,
which require a positive integer. -/
def chunks : Nat → List α → List (List α)
  | _, [] => []
  | 0, _ :: _ => []
  | k + 1, x :: xs => (x :: xs).take (k + 1) :: chunks (k + 1) ((x :: xs).drop (k + 1))
termination_by _ l => l.length
decreasing_by
  simp only [List.length_cons, List.length_drop]
  omega

/-- The skipped-lead result appended for invalid-domain leads. -/
def skippedResult (lead : EnrichedLead) : EnrichmentResult :=
  { lead := { lead with enrichmentStatus := .skipped },
    scrapeResult := none, emailResult := none, icebreakerResult := none }

/-- `findEmailsForLeads`: valid-domain leads in batches of `maxConcurrency`
(concurrent within a batch, sequential across batches), then the invalid
leads appended as `skipped`. The returned results are the same under any
within-batch interleaving because each lead's computation depends only on
the environment and the lead (the shared `usage` accumulator feeds only the
progress callback). -/
def findEmailsForLeads (env : Env) (leads : List EnrichedLead)
    (config : EnrichmentConfig) : List EnrichmentResult :=
  let validLeads := leads.filter (fun l => dvIsValid l.domainValidation)
  let batches := chunks config.maxConcurrency validLeads
  (batches.map (fun batch => batch.map (fun lead => (enrichLead env lead phase1Options).2))).flatten
    ++ (leads.filter (fun l => !dvIsValid l.domainValidation)).map skippedResult

/-! ### Trace semantics for phase 1

A batch's leads run concurrently, so the batch's observable call trace is an
arbitrary interleaving of the per-lead call traces; `await Promise.all`
before the next loop iteration means the full trace is the concatenation of
the batch traces in order. Calls are tagged with the lead's global index in
the valid-leads list. -/

inductive Interleaves : List (List α) → List α → Prop
  | nil (ls : List (List α)) : (∀ l ∈ ls, l = []) → Interleaves ls []
  | cons (ls : List (List α)) (i : Fin ls.length) (x : α) (rest : List α) (t : List α) :
      ls.get i = x :: rest → Interleaves (ls.set i rest) t → Interleaves ls (x :: t)

/-- The calls made by one lead during phase 1. -/
def leadCalls (env : Env) (lead : EnrichedLead) : List NetCall :=
  (enrichLead env lead phase1Options).1

/-- Per-batch lists of per-lead tagged traces, batch by batch. -/
def phaseOneBatches (env : Env) (leads : List EnrichedLead)
    (config : EnrichmentConfig) : List (List (List (Nat × NetCall))) :=
  (chunks config.maxConcurrency
      (leads.filter (fun l => dvIsValid l.domainValidation)).enum).map
    (fun batch => batch.map (fun p => (leadCalls env p.2).map (fun c => (p.1, c))))

/-- `tr` is an observable phase-1 call trace: batch traces are interleavings
of their leads' traces and are concatenated in batch order. -/
def PhaseOneTrace (env : Env) (leads : List EnrichedLead) (config : EnrichmentConfig)
    (tr : List (Nat × NetCall)) : Prop :=
  ∃ bts : List (List (Nat × NetCall)),
    List.Forall₂ (fun batchTraces bt => Interleaves batchTraces bt)
      (phaseOneBatches env leads config) bts
    ∧ tr = bts.flatten

/-! ### C1: contact-page fallback condition -/

/-- The response of `envAllScrapeFail` for a url: `success: false`,
no markdown, no throw. -/
def failedScrape (u : String) : ScrapeResult where
  success := false
  url := u
  markdown := none
  title := none
  description := none
  error := some "fetch failed"

def envAllScrapeFail : Env where
  scrape := fun u => .ok (failedScrape u)
  extractEmails := fun _ _ => .error "unused"
  generateIcebreaker := fun _ _ _ _ => .error "unused"
  urlHostname := fun _ => none

/-- C1 counterexample: when the main-page scrape returns `success: false`
(a failure, not a throw), the code still scrapes all three contact-page
guesses, so the fallback is not restricted to the
main-scrape-succeeded-without-email case. -/
theorem scrapeForContact_main_failure_counterexample :
    (∃ r, envAllScrapeFail.scrape "https://acme.com" = .ok r ∧ r.success = false) ∧
    (scrapeForContact envAllScrapeFail "https://acme.com").1
      = [NetCall.scrape "https://acme.com", NetCall.scrape "https://acme.com/contact",
         NetCall.scrape "https://acme.com/contact-us",
         NetCall.scrape "https://acme.com/about"] := by
  exact ⟨⟨failedScrape "https://acme.com", rfl, rfl⟩, by decide⟩

theorem tryContactPaths_head (env : Env) (n path : String) (rest : List String) :
    ∃ t, (tryContactPaths env n (path :: rest)).1 = NetCall.scrape (n ++ path) :: t := by
  simp only [tryContactPaths]
  rcases h : env.scrape (n ++ path) with e | r
  · exact ⟨_, rfl⟩
  · dsimp only
    split
    · exact ⟨_, rfl⟩
    · exact ⟨_, rfl⟩

/-- C1 (amended): the contact-page fallback is attempted exactly when the
main-page scrape returns (does not throw) a result without email-bearing
markdown — including a failed main-page scrape. Only a thrown main-page
scrape, or a main-page success whose markdown contains an email-shaped
substring, prevents contact-page scrapes. -/
theorem scrapeForContact_fallback_amended (env : Env) (baseUrl : String) :
    (∀ e, env.scrape baseUrl = .error e →
      scrapeForContact env baseUrl = ([NetCall.scrape baseUrl], .error e)) ∧
    (∀ r, env.scrape baseUrl = .ok r → scrapeGoodEmail r = true →
      scrapeForContact env baseUrl = ([NetCall.scrape baseUrl], .ok r)) ∧
    (∀ r, env.scrape baseUrl = .ok r → scrapeGoodEmail r = false →
      ∃ t, (scrapeForContact env baseUrl).1
        = NetCall.scrape baseUrl
          :: NetCall.scrape (dropOneTrailingSlash baseUrl ++ "/contact") :: t) := by
  refine ⟨fun e he => ?_, fun r hr hgood => ?_, fun r hr hbad => ?_⟩
  · unfold scrapeForContact
    rw [he]
  · unfold scrapeForContact
    rw [hr]
    dsimp only
    rw [if_pos hgood]
  · unfold scrapeForContact
    rw [hr]
    dsimp only
    rw [if_neg (by simp [hbad])]
    obtain ⟨t, ht⟩ := tryContactPaths_head env (dropOneTrailingSlash baseUrl) "/contact"
      ["/contact-us", "/about"]
    refine ⟨t, ?_⟩
    show NetCall.scrape baseUrl
        :: (tryContactPaths env (dropOneTrailingSlash baseUrl) contactPaths).1 = _
    rw [show contactPaths = "/contact" :: ["/contact-us", "/about"] from rfl, ht]

/-- Witness for C1 (amended) at the all-scrapes-fail environment: the
main-page scrape fails, and the first contact-page guess is scraped next. -/
theorem scrapeForContact_fallback_amended_witness :
    ∃ t, (scrapeForContact envAllScrapeFail "https://acme.com").1
      = NetCall.scrape "https://acme.com"
        :: NetCall.scrape (dropOneTrailingSlash "https://acme.com" ++ "/contact") :: t :=
  (scrapeForContact_fallback_amended envAllScrapeFail "https://acme.com").2.2
    (failedScrape "https://acme.com") rfl (by decide)

/-! ### C3 support: chunk arithmetic and trace ordering -/

theorem chunks_length {α : Type} (k : Nat) (l : List α) (hk : 0 < k) :
    (chunks k l).length = (l.length + k - 1) / k := by
  induction k, l using chunks.induct with
  | case1 k =>
    simp only [chunks, List.length_nil]
    rw [Nat.div_eq_of_lt (by omega)]
  | case2 x xs => exact absurd hk (by decide)
  | case3 k x xs ih =>
    have hrec : (chunks (k + 1) ((x :: xs).drop (k + 1))).length
        = (((x :: xs).drop (k + 1)).length + (k + 1) - 1) / (k + 1) := ih (by omega)
    have hd : ((x :: xs).drop (k + 1)).length = xs.length - k := by
      simp only [List.length_drop, List.length_cons]
      omega
    simp only [chunks, List.length_cons, Nat.succ_eq_add_one]
    rw [hrec, hd]
    by_cases hn : xs.length ≤ k
    · have h1 : (xs.length - k + (k + 1) - 1) / (k + 1) = 0 := Nat.div_eq_of_lt (by omega)
      have h2 : (xs.length + 1 + (k + 1) - 1) / (k + 1) = 1 :=
        @Nat.div_eq_of_lt_le 1 (k + 1) _ (by omega) (by omega)
      omega
    · rw [show xs.length + 1 + (k + 1) - 1 = (xs.length - k + (k + 1) - 1) + (k + 1) by omega,
        Nat.add_div_right _ (by omega)]

theorem chunks_flatten {α : Type} (k : Nat) (l : List α) (hk : 0 < k) :
    (chunks k l).flatten = l := by
  induction k, l using chunks.induct with
  | case1 k => simp [chunks]
  | case2 x xs => exact absurd hk (by decide)
  | case3 k x xs ih =>
    simp only [chunks, List.flatten_cons]
    rw [ih (by omega), List.take_append_drop]

theorem drop_enumFrom {α : Type} (l : List α) (s k : Nat) :
    (List.enumFrom s l).drop k = List.enumFrom (s + k) (l.drop k) := by
  induction l generalizing s k with
  | nil => simp
  | cons x xs ih =>
    cases k with
    | zero => simp
    | succ k =>
      rw [List.enumFrom_cons]
      simp only [List.drop_succ_cons]
      rw [ih (s + 1) k]
      congr 1
      omega

theorem mem_take_enumFrom {α : Type} {p : Nat × α} :
    ∀ (l : List α) (s k : Nat), p ∈ (List.enumFrom s l).take k → s ≤ p.1 ∧ p.1 < s + k := by
  intro l
  induction l with
  | nil => intro s k h; simp at h
  | cons x xs ih =>
    intro s k h
    cases k with
    | zero => simp at h
    | succ k =>
      rw [List.enumFrom_cons, List.take_succ_cons] at h
      rcases List.mem_cons.mp h with rfl | h
      · constructor
        · exact Nat.le_refl _
        · omega
      · have := ih (s + 1) k h
        omega

/-- Batches of an enumeration aligned at a multiple of `k`: all indices are
at least the start, each batch has a constant batch number `index / k`, and
batch numbers increase across batches. -/
theorem chunks_enum_aligned {α : Type} (k : Nat) (hk : 0 < k) :
    ∀ (n : Nat) (l : List α), l.length ≤ n → ∀ (m : Nat),
      (∀ b ∈ chunks k (List.enumFrom (m * k) l), ∀ p ∈ b, m * k ≤ p.1)
      ∧ (∀ b ∈ chunks k (List.enumFrom (m * k) l), ∀ p ∈ b, ∀ q ∈ b, p.1 / k = q.1 / k)
      ∧ (chunks k (List.enumFrom (m * k) l)).Pairwise
          (fun b1 b2 => ∀ p ∈ b1, ∀ q ∈ b2, p.1 / k ≤ q.1 / k) := by
  intro n
  induction n with
  | zero =>
    intro l hl m
    have : l = [] := List.eq_nil_of_length_eq_zero (by omega)
    subst this
    simp [chunks, List.enumFrom]
  | succ n ih =>
    intro l hl m
    cases l with
    | nil => simp [chunks, List.enumFrom]
    | cons y ys =>
      obtain ⟨k', rfl⟩ : ∃ k', k = k' + 1 := ⟨k - 1, by omega⟩
      set k := k' + 1 with hkdef
      have hcons : List.enumFrom (m * k) (y :: ys)
          = (m * k, y) :: List.enumFrom (m * k + 1) ys := List.enumFrom_cons
      have hchunks : chunks k (List.enumFrom (m * k) (y :: ys))
          = (List.enumFrom (m * k) (y :: ys)).take k
            :: chunks k (List.enumFrom ((m + 1) * k) ((y :: ys).drop k)) := by
        rw [hcons]
        simp only [chunks]
        rw [← hcons, drop_enumFrom]
        congr 2
        rw [Nat.succ_mul]
      have hihyp := ih ((y :: ys).drop k) (by
        simp only [List.length_drop, List.length_cons] at hl ⊢
        omega) (m + 1)
      obtain ⟨ihLB, ihConst, ihPW⟩ := hihyp
      have hB0 : ∀ p ∈ (List.enumFrom (m * k) (y :: ys)).take k,
          m * k ≤ p.1 ∧ p.1 < m * k + k := fun p hp => mem_take_enumFrom _ _ _ hp
      have hB0div : ∀ p ∈ (List.enumFrom (m * k) (y :: ys)).take k, p.1 / k = m := by
        intro p hp
        obtain ⟨h1, h2⟩ := hB0 p hp
        exact @Nat.div_eq_of_lt_le m k _ (by omega) (by rw [Nat.succ_mul]; omega)
      have hRestLB : ∀ b ∈ chunks k (List.enumFrom ((m + 1) * k) ((y :: ys).drop k)),
          ∀ p ∈ b, m * k ≤ p.1 := by
        intro b hb p hp
        have := ihLB b hb p hp
        have : (m + 1) * k ≤ p.1 := this
        have hmk : m * k ≤ (m + 1) * k := Nat.mul_le_mul_right _ (by omega)
        omega
      have hRestDivLB : ∀ b ∈ chunks k (List.enumFrom ((m + 1) * k) ((y :: ys).drop k)),
          ∀ p ∈ b, m + 1 ≤ p.1 / k := by
        intro b hb p hp
        have := ihLB b hb p hp
        exact (Nat.le_div_iff_mul_le hk).mpr this
      rw [hchunks]
      refine ⟨?_, ?_, ?_⟩
      · intro b hb p hp
        rcases List.mem_cons.mp hb with rfl | hb
        · exact (hB0 p hp).1
        · exact hRestLB b hb p hp
      · intro b hb p hp q hq
        rcases List.mem_cons.mp hb with rfl | hb
        · rw [hB0div p hp, hB0div q hq]
        · exact ihConst b hb p hp q hq
      · refine List.pairwise_cons.mpr ⟨?_, ihPW⟩
        intro b hb p hp q hq
        rw [hB0div p hp]
        have := hRestDivLB b hb q hq
        omega

theorem forall₂_mem_right {α β : Type} {R : α → β → Prop} :
    ∀ {l1 : List α} {l2 : List β}, List.Forall₂ R l1 l2 → ∀ d ∈ l2, ∃ c ∈ l1, R c d := by
  intro l1 l2 h
  induction h with
  | nil => intro d hd; simp at hd
  | cons hab hrec ih =>
    intro d hd
    rcases List.mem_cons.mp hd with rfl | hd
    · exact ⟨_, List.mem_cons_self _ _, hab⟩
    · obtain ⟨c, hc, hcd⟩ := ih d hd
      exact ⟨c, List.mem_cons_of_mem _ hc, hcd⟩

theorem forall₂_pairwise {α β : Type} {R : α → β → Prop} {S : α → α → Prop}
    {T : β → β → Prop}
    (hcomp : ∀ a b c d, R a b → R c d → S a c → T b d) :
    ∀ {l1 : List α} {l2 : List β}, List.Forall₂ R l1 l2 →
      l1.Pairwise S → l2.Pairwise T := by
  intro l1 l2 h
  induction h with
  | nil => intro _; exact List.Pairwise.nil
  | cons hab hrec ih =>
    intro hpw
    rcases List.pairwise_cons.mp hpw with ⟨hhead, htail⟩
    refine List.pairwise_cons.mpr ⟨?_, ih htail⟩
    intro d hd
    obtain ⟨c, hc, hcd⟩ := forall₂_mem_right hrec d hd
    exact hcomp _ _ _ _ hab hcd (hhead c hc)

/-- Concatenating blocks with constant `g` within each block and
non-decreasing `g` across blocks yields a `g`-monotone list. -/
theorem flatten_pairwise_of_blocks {α : Type} (g : α → Nat) :
    ∀ (bts : List (List α)),
      (∀ b ∈ bts, ∀ x ∈ b, ∀ y ∈ b, g x = g y) →
      bts.Pairwise (fun b1 b2 => ∀ x ∈ b1, ∀ y ∈ b2, g x ≤ g y) →
      bts.flatten.Pairwise (fun a b => g a ≤ g b) := by
  intro bts
  induction bts with
  | nil => intro _ _; simp
  | cons b rest ih =>
    intro H1 H2
    rcases List.pairwise_cons.mp H2 with ⟨hhead, htail⟩
    rw [List.flatten_cons, List.pairwise_append]
    refine ⟨?_, ?_, ?_⟩
    · exact List.pairwise_of_forall_mem_list (fun x hx y hy =>
        Nat.le_of_eq (H1 b (List.mem_cons_self _ _) x hx y hy))
    · exact ih (fun b' hb' => H1 b' (List.mem_cons_of_mem _ hb')) htail
    · intro x hx y hy
      obtain ⟨s, hs, hys⟩ := List.mem_flatten.mp hy
      exact hhead s hs x hx y hys

theorem interleaves_mem {α : Type} {ls : List (List α)} {t : List α}
    (h : Interleaves ls t) : ∀ x ∈ t, ∃ l ∈ ls, x ∈ l := by
  induction h with
  | nil ls h => intro x hx; simp at hx
  | cons ls i x rest t hget hrec ih =>
    intro y hy
    rcases List.mem_cons.mp hy with rfl | hy
    · exact ⟨ls.get i, List.get_mem ls i i.isLt, by rw [hget]; exact List.mem_cons_self _ _⟩
    · obtain ⟨l, hl, hyl⟩ := ih y hy
      rcases List.mem_or_eq_of_mem_set hl with hl | rfl
      · exact ⟨l, hl, hyl⟩
      · exact ⟨ls.get i, List.get_mem ls i i.isLt,
          by rw [hget]; exact List.mem_cons_of_mem _ hyl⟩

/-- C3: with `maxConcurrency = k > 0`, phase 1 partitions the valid leads
into exactly `⌈n / k⌉` batches whose concatenation is the valid-lead list in
order, and along every observable phase-1 trace the batch number of the lead
an event belongs to (`global index / k`) is monotone: every call of batch
`i-1` precedes every call of batch `i`, and a batch's calls start only after
the previous batch's calls have all happened. -/
theorem findEmailsForLeads_batching (env : Env) (leads : List EnrichedLead)
    (config : EnrichmentConfig) (hk : 0 < config.maxConcurrency) :
    (chunks config.maxConcurrency
        (leads.filter (fun l => dvIsValid l.domainValidation))).length
      = ((leads.filter (fun l => dvIsValid l.domainValidation)).length
          + config.maxConcurrency - 1) / config.maxConcurrency
    ∧ (chunks config.maxConcurrency
        (leads.filter (fun l => dvIsValid l.domainValidation))).flatten
      = leads.filter (fun l => dvIsValid l.domainValidation)
    ∧ ∀ tr, PhaseOneTrace env leads config tr →
        tr.Pairwise (fun a b =>
          a.1 / config.maxConcurrency ≤ b.1 / config.maxConcurrency) := by
  refine ⟨chunks_length _ _ hk, chunks_flatten _ _ hk, ?_⟩
  rintro tr ⟨bts, hf, rfl⟩
  have halign := chunks_enum_aligned config.maxConcurrency hk
    (leads.filter (fun l => dvIsValid l.domainValidation)).length
    (leads.filter (fun l => dvIsValid l.domainValidation)) (le_refl _) 0
  rw [Nat.zero_mul, ← List.enum_eq_enumFrom] at halign
  obtain ⟨_, hConst, hPW⟩ := halign
  have hmemtag : ∀ (batch : List (Nat × EnrichedLead)) (x : Nat × NetCall),
      (∃ l ∈ batch.map (fun p => (leadCalls env p.2).map (fun c => (p.1, c))), x ∈ l) →
      ∃ p ∈ batch, x.1 = p.1 := by
    rintro batch x ⟨l, hl, hxl⟩
    obtain ⟨p, hp, rfl⟩ := List.mem_map.mp hl
    obtain ⟨c, _, rfl⟩ := List.mem_map.mp hxl
    exact ⟨p, hp, rfl⟩
  have H1 : ∀ bt ∈ bts, ∀ x ∈ bt, ∀ y ∈ bt,
      x.1 / config.maxConcurrency = y.1 / config.maxConcurrency := by
    intro bt hbt x hx y hy
    obtain ⟨bT, hbT, hint⟩ := forall₂_mem_right hf bt hbt
    rw [phaseOneBatches] at hbT
    obtain ⟨batch, hbatch, rfl⟩ := List.mem_map.mp hbT
    obtain ⟨p, hp, hxp⟩ := hmemtag batch x (interleaves_mem hint x hx)
    obtain ⟨q, hq, hyq⟩ := hmemtag batch y (interleaves_mem hint y hy)
    rw [hxp, hyq]
    exact hConst batch hbatch p hp q hq
  have hSmap : (phaseOneBatches env leads config).Pairwise
      (fun bT1 bT2 => ∀ l1 ∈ bT1, ∀ x ∈ l1, ∀ l2 ∈ bT2, ∀ y ∈ l2,
        x.1 / config.maxConcurrency ≤ y.1 / config.maxConcurrency) := by
    rw [phaseOneBatches, List.pairwise_map]
    refine hPW.imp_of_mem ?_
    intro b1 b2 hb1 hb2 hrel
    intro l1 hl1 x hx l2 hl2 y hy
    obtain ⟨p, hp, hxp⟩ := hmemtag b1 x ⟨l1, hl1, hx⟩
    obtain ⟨q, hq, hyq⟩ := hmemtag b2 y ⟨l2, hl2, hy⟩
    rw [hxp, hyq]
    exact hrel p hp q hq
  have H2 : bts.Pairwise (fun b1 b2 => ∀ x ∈ b1, ∀ y ∈ b2,
      x.1 / config.maxConcurrency ≤ y.1 / config.maxConcurrency) := by
    refine forall₂_pairwise ?_ hf hSmap
    intro bT1 bt1 bT2 bt2 hi1 hi2 hS x hx y hy
    obtain ⟨l1, hl1, hxl1⟩ := interleaves_mem hi1 x hx
    obtain ⟨l2, hl2, hyl2⟩ := interleaves_mem hi2 y hy
    exact hS l1 hl1 x hxl1 l2 hl2 y hyl2
  exact flatten_pairwise_of_blocks _ bts H1 H2

theorem interleaves_cons_nil {α : Type} {ls : List (List α)} {t : List α}
    (h : Interleaves ls t) : Interleaves ([] :: ls) t := by
  induction h with
  | nil ls h =>
    refine .nil _ ?_
    intro l hl
    rcases List.mem_cons.mp hl with rfl | hl
    · rfl
    · exact h l hl
  | cons ls i x rest t hget hrec ih =>
    refine .cons ([] :: ls) ⟨(i : Nat) + 1, by simp [i.isLt]⟩ x rest t ?_ ?_
    · rw [List.get_cons_succ]
      exact hget
    · rw [List.set_cons_succ]
      exact ih

theorem interleaves_flatten {α : Type} (ls : List (List α)) : Interleaves ls ls.flatten := by
  induction ls with
  | nil => exact .nil [] (by simp)
  | cons l rest ih =>
    induction l with
    | nil => exact interleaves_cons_nil ih
    | cons x l' ihl =>
      refine .cons ((x :: l') :: rest) ⟨0, by simp⟩ x l' (l' ++ rest.flatten) rfl ?_
      simpa using ihl

theorem forall₂_interleaves_flatten {α : Type} (L : List (List (List α))) :
    List.Forall₂ (fun a b => Interleaves a b) L (L.map List.flatten) := by
  induction L with
  | nil => exact List.Forall₂.nil
  | cons a rest ih => exact List.Forall₂.cons (interleaves_flatten a) ih

/-- The canonical phase-1 trace: each batch's leads in order. -/
theorem phaseOneTrace_canonical (env : Env) (leads : List EnrichedLead)
    (config : EnrichmentConfig) :
    PhaseOneTrace env leads config
      ((phaseOneBatches env leads config).map List.flatten).flatten :=
  ⟨(phaseOneBatches env leads config).map List.flatten,
    forall₂_interleaves_flatten _, rfl⟩

def sampleValidation : DomainValidation where
  isValid := true
  domain := "acme.com"
  tld := "com"
  error := none

def sampleLead (w : String) : EnrichedLead where
  website := w
  company := none
  name := none
  extraFields := []
  email := none
  icebreaker := none
  enrichmentStatus := .pending
  errorMessage := none
  domainValidation := some sampleValidation

def sampleConfig : EnrichmentConfig where
  maxConcurrency := 1
  retryAttempts := 2
  includeIcebreaker := true
  icebreakerTone := "professional"

/-- Witness for C3 at two valid leads with `maxConcurrency = 1` and the
canonical trace. -/
theorem findEmailsForLeads_batching_witness :
    0 < sampleConfig.maxConcurrency ∧
    (((phaseOneBatches envAllScrapeFail
        [sampleLead "https://a.com", sampleLead "https://b.com"] sampleConfig).map
          List.flatten).flatten).Pairwise
      (fun a b => a.1 / sampleConfig.maxConcurrency ≤ b.1 / sampleConfig.maxConcurrency) :=
  ⟨by decide,
   (findEmailsForLeads_batching envAllScrapeFail
      [sampleLead "https://a.com", sampleLead "https://b.com"] sampleConfig (by decide)).2.2
     _ (phaseOneTrace_canonical _ _ _)⟩

/-! ### C4 and C5: invalid-domain skipping and per-lead failure isolation -/

/-- The batched-then-flattened valid results are just the per-lead results in
valid-lead order; invalid leads follow as `skipped`. -/
theorem findEmailsForLeads_eq_map (env : Env) (leads : List EnrichedLead)
    (config : EnrichmentConfig) (hk : 0 < config.maxConcurrency) :
    findEmailsForLeads env leads config
      = (leads.filter (fun l => dvIsValid l.domainValidation)).map
          (fun l => (enrichLead env l phase1Options).2)
        ++ (leads.filter (fun l => !dvIsValid l.domainValidation)).map skippedResult := by
  show ((chunks config.maxConcurrency
      (leads.filter (fun l => dvIsValid l.domainValidation))).map
        (fun batch => batch.map (fun lead => (enrichLead env lead phase1Options).2))).flatten
    ++ (leads.filter (fun l => !dvIsValid l.domainValidation)).map skippedResult = _
  congr 1
  rw [← List.map_flatten, chunks_flatten _ _ hk]

theorem filter_length_partition {α : Type} (p : α → Bool) (l : List α) :
    (l.filter p).length + (l.filter (fun a => !p a)).length = l.length := by
  induction l with
  | nil => rfl
  | cons x xs ih =>
    by_cases h : p x <;> simp only [List.filter_cons, h] <;> simp <;> omega

/-- C4: a lead with an invalid domain validation makes no network call — its
`enrichLead` trace is empty — and is returned with status `skipped`; in
`findEmailsForLeads` all invalid leads are appended as `skipped` results
after the results of every valid-lead batch. -/
theorem findEmailsForLeads_skips_invalid (env : Env) (leads : List EnrichedLead)
    (config : EnrichmentConfig) :
    (∀ lead options, dvIsValid lead.domainValidation = false →
      enrichLead env lead options = ([], skippedResult lead)) ∧
    (0 < config.maxConcurrency →
      findEmailsForLeads env leads config
        = (leads.filter (fun l => dvIsValid l.domainValidation)).map
            (fun l => (enrichLead env l phase1Options).2)
          ++ (leads.filter (fun l => !dvIsValid l.domainValidation)).map skippedResult) := by
  constructor
  · intro lead options h
    simp [enrichLead, h, skippedResult]
  · intro hk
    exact findEmailsForLeads_eq_map env leads config hk

def invalidSampleLead : EnrichedLead where
  website := "not a domain"
  company := none
  name := none
  extraFields := []
  email := none
  icebreaker := none
  enrichmentStatus := .skipped
  errorMessage := some "Invalid domain: Invalid domain format"
  domainValidation := some
    { isValid := false
      domain := "not a domain"
      tld := ""
      error := some "Invalid domain format" }

/-- Witness for C4 at an invalid-domain lead. -/
theorem findEmailsForLeads_skips_invalid_witness :
    enrichLead envAllScrapeFail invalidSampleLead phase1Options
      = ([], skippedResult invalidSampleLead) ∧
    findEmailsForLeads envAllScrapeFail [invalidSampleLead] sampleConfig
      = ([invalidSampleLead].filter (fun l => dvIsValid l.domainValidation)).map
          (fun l => (enrichLead envAllScrapeFail l phase1Options).2)
        ++ ([invalidSampleLead].filter (fun l => !dvIsValid l.domainValidation)).map
            skippedResult :=
  ⟨(findEmailsForLeads_skips_invalid envAllScrapeFail [invalidSampleLead] sampleConfig).1
      invalidSampleLead phase1Options rfl,
   (findEmailsForLeads_skips_invalid envAllScrapeFail [invalidSampleLead] sampleConfig).2
      (by decide)⟩

/-- An environment whose scrape endpoint always throws. -/
def envScrapeThrow : Env where
  scrape := fun _ => .error "boom"
  extractEmails := fun _ _ => .error "unused"
  generateIcebreaker := fun _ _ _ _ => .error "unused"
  urlHostname := fun _ => none

/-- An environment whose scrape succeeds with email-bearing markdown and whose
extraction endpoint resolves with `success: false` (a real backend path: the
`/extract-emails` endpoint answers 200 with `{success: false, error: ...}`
when the AI response cannot be parsed). -/
def envExtractResolvedFail : Env where
  scrape := fun u => .ok
    { success := true
      url := u
      markdown := some "Contact us: sales@acme.com"
      title := none
      description := none
      error := none }
  extractEmails := fun _ _ => .ok
    { success := false
      emails := []
      primaryEmail := none
      confidence := .low
      inputTokens := 0
      outputTokens := 0
      error := some "Failed to parse AI response" }
  generateIcebreaker := fun _ _ _ _ => .error "unused"
  urlHostname := fun _ => none

/-- C5 counterexample: a non-thrown extraction failure - the extraction
endpoint resolves `{success: false, error: ...}` instead of throwing - is not
recorded as `failed` with an `errorMessage`: the extraction call is made and
fails, yet the lead finishes `completed` with no `errorMessage`. -/
theorem enrichLead_extraction_failure_counterexample :
    ((enrichLead envExtractResolvedFail (sampleLead "https://acme.com")
        phase1Options).2.emailResult.map (fun r => r.success) = some false)
    ∧ (enrichLead envExtractResolvedFail (sampleLead "https://acme.com") phase1Options).1
        = [NetCall.scrape "https://acme.com", NetCall.extractEmails]
    ∧ (enrichLead envExtractResolvedFail (sampleLead "https://acme.com")
        phase1Options).2.lead.enrichmentStatus = .completed
    ∧ (enrichLead envExtractResolvedFail (sampleLead "https://acme.com")
        phase1Options).2.lead.errorMessage = none := by
  refine ⟨?_, ?_, ?_, ?_⟩ <;> decide

/-- C5 (amended): per-lead failures are isolated and *thrown* errors are
recorded, but a resolved extraction failure is not. A thrown scrape, an
unusable scrape result, or a thrown extraction is caught at the lead's
boundary and recorded as status `failed` with `errorMessage` set; an
extraction call that resolves - even with `success: false` - leaves the lead
`completed` with its `errorMessage` unchanged; and the result list contains
one entry per lead, each valid lead's entry a function of that lead and the
environment alone, so one lead's failure cannot affect its siblings or stop
later batches. -/
theorem enrichLead_failure_isolation_amended (env : Env) (leads : List EnrichedLead)
    (config : EnrichmentConfig) :
    (∀ lead e, dvIsValid lead.domainValidation = true →
      (scrapeForContact env lead.website).2 = Except.error e →
      (enrichLead env lead phase1Options).2.lead.enrichmentStatus = .failed
        ∧ (enrichLead env lead phase1Options).2.lead.errorMessage = some e) ∧
    (∀ lead r, dvIsValid lead.domainValidation = true →
      (scrapeForContact env lead.website).2 = Except.ok r →
      (r.success && optStrTruthy r.markdown) = false →
      (enrichLead env lead phase1Options).2.lead.enrichmentStatus = .failed
        ∧ (enrichLead env lead phase1Options).2.lead.errorMessage
            = some (scrapeFailMsg r.error)) ∧
    (∀ lead r e, dvIsValid lead.domainValidation = true →
      (scrapeForContact env lead.website).2 = Except.ok r →
      (r.success && optStrTruthy r.markdown) = true →
      env.extractEmails (r.markdown.getD "")
          (extractDomain env.urlHostname lead.website) = Except.error e →
      (enrichLead env lead phase1Options).2.lead.enrichmentStatus = .failed
        ∧ (enrichLead env lead phase1Options).2.lead.errorMessage = some e) ∧
    (∀ lead r er, dvIsValid lead.domainValidation = true →
      (scrapeForContact env lead.website).2 = Except.ok r →
      (r.success && optStrTruthy r.markdown) = true →
      env.extractEmails (r.markdown.getD "")
          (extractDomain env.urlHostname lead.website) = Except.ok er →
      (enrichLead env lead phase1Options).2.lead.enrichmentStatus = .completed
        ∧ (enrichLead env lead phase1Options).2.lead.errorMessage = lead.errorMessage) ∧
    (0 < config.maxConcurrency →
      findEmailsForLeads env leads config
        = (leads.filter (fun l => dvIsValid l.domainValidation)).map
            (fun l => (enrichLead env l phase1Options).2)
          ++ (leads.filter (fun l => !dvIsValid l.domainValidation)).map skippedResult
        ∧ (findEmailsForLeads env leads config).length = leads.length) := by
  refine ⟨?_, ?_, ?_, ?_, ?_⟩
  · intro lead e hv hs
    rcases hpair : scrapeForContact env lead.website with ⟨t, s⟩
    rw [hpair] at hs
    simp only at hs
    subst hs
    refine ⟨?_, ?_⟩ <;> simp [enrichLead, hv, hpair]
  · intro lead r hv hs hbad
    rcases hpair : scrapeForContact env lead.website with ⟨t, s⟩
    rw [hpair] at hs
    simp only at hs
    subst hs
    refine ⟨?_, ?_⟩ <;> simp [enrichLead, hv, hpair, hbad]
  · intro lead r e hv hs hgood hext
    rcases hpair : scrapeForContact env lead.website with ⟨t, s⟩
    rw [hpair] at hs
    simp only at hs
    subst hs
    refine ⟨?_, ?_⟩ <;> simp [enrichLead, hv, hpair, hgood, hext]
  · intro lead r er hv hs hgood hext
    rcases hpair : scrapeForContact env lead.website with ⟨t, s⟩
    rw [hpair] at hs
    simp only at hs
    subst hs
    constructor
    · simp [enrichLead, hv, hpair, hgood, hext, phase1Options]
    · simp only [enrichLead, hv, hpair, hgood, hext, phase1Options]
      simp [apply_ite EnrichedLead.errorMessage]
  · intro hk
    refine ⟨findEmailsForLeads_eq_map env leads config hk, ?_⟩
    rw [findEmailsForLeads_eq_map env leads config hk]
    simp only [List.length_append, List.length_map]
    exact filter_length_partition _ _

/-- Witness for C5: a thrown scrape is recorded as `failed` with the thrown
message, a resolved `success: false` extraction leaves the lead `completed`
with `errorMessage` unchanged, and the single-lead run still produces one
result per lead. -/
theorem enrichLead_failure_isolation_amended_witness :
    ((enrichLead envScrapeThrow (sampleLead "https://a.com") phase1Options).2.lead.enrichmentStatus
        = .failed
      ∧ (enrichLead envScrapeThrow (sampleLead "https://a.com") phase1Options).2.lead.errorMessage
        = some "boom")
    ∧ ((enrichLead envExtractResolvedFail (sampleLead "https://acme.com")
          phase1Options).2.lead.enrichmentStatus = .completed
      ∧ (enrichLead envExtractResolvedFail (sampleLead "https://acme.com")
          phase1Options).2.lead.errorMessage = (sampleLead "https://acme.com").errorMessage)
    ∧ (findEmailsForLeads envScrapeThrow [sampleLead "https://a.com"] sampleConfig
        = ([sampleLead "https://a.com"].filter (fun l => dvIsValid l.domainValidation)).map
            (fun l => (enrichLead envScrapeThrow l phase1Options).2)
          ++ ([sampleLead "https://a.com"].filter
              (fun l => !dvIsValid l.domainValidation)).map skippedResult
        ∧ (findEmailsForLeads envScrapeThrow [sampleLead "https://a.com"] sampleConfig).length
            = 1) :=
  ⟨(enrichLead_failure_isolation_amended envScrapeThrow
      [sampleLead "https://a.com"] sampleConfig).1
      (sampleLead "https://a.com") "boom" rfl rfl,
   (enrichLead_failure_isolation_amended envExtractResolvedFail
        [sampleLead "https://acme.com"] sampleConfig).2.2.2.1
      (sampleLead "https://acme.com")
      { success := true
        url := "https://acme.com"
        markdown := some "Contact us: sales@acme.com"
        title := none
        description := none
        error := none }
      { success := false
        emails := []
        primaryEmail := none
        confidence := .low
        inputTokens := 0
        outputTokens := 0
        error := some "Failed to parse AI response" }
      rfl rfl (by decide) rfl,
   (enrichLead_failure_isolation_amended envScrapeThrow
      [sampleLead "https://a.com"] sampleConfig).2.2.2.2
      (by decide)⟩

/-! ## CSV processing (src/agent/csvProcessor.ts)

`csv-parse` and `csv-stringify` are external libraries. Modelled from the
spec: "CSV input/output format: standard comma-delimited, quoted-field-aware,
header row required", together with the options the source passes
(`columns: true`, `trim: true` — whitespace around delimiters of unquoted
fields is dropped, quoted content is kept verbatim —, `skip_empty_lines`,
and need-based quoting with `""` escapes on output, `\n` record delimiter).
Records are JavaScript objects: ordered association lists with
insertion-order keys; object spread updates an existing key in place and
appends new keys. -/

/-- Horizontal whitespace trimmed around delimiters. -/
def isHws (c : Char) : Bool := c = ' ' || c = '\t'

inductive CsvSt where
  | fieldStart | unquoted | quoted | afterQuote
deriving Repr, DecidableEq

/-- One-pass CSV reader: `cur` is the current field (reversed), `row` the
current row's fields (reversed), `rows` the finished rows (reversed). -/
def csvRun : List Char → CsvSt → List Char → List (List Char) →
    List (List (List Char)) → List (List (List Char))
  | [], .fieldStart, _, row, rows =>
    if row.isEmpty then rows.reverse
    else ((([] : List Char) :: row).reverse :: rows).reverse
  | [], .unquoted, cur, row, rows =>
    (((cur.dropWhile isHws).reverse :: row).reverse :: rows).reverse
  | [], .quoted, cur, row, rows => ((cur.reverse :: row).reverse :: rows).reverse
  | [], .afterQuote, cur, row, rows => ((cur.reverse :: row).reverse :: rows).reverse
  | c :: rest, .fieldStart, cur, row, rows =>
    if isHws c then csvRun rest .fieldStart cur row rows
    else if c = '"' then csvRun rest .quoted [] row rows
    else if c = ',' then csvRun rest .fieldStart [] (([] : List Char) :: row) rows
    else if c = '\n' then
      csvRun rest .fieldStart [] [] ((([] : List Char) :: row).reverse :: rows)
    else csvRun rest .unquoted [c] row rows
  | c :: rest, .unquoted, cur, row, rows =>
    if c = ',' then csvRun rest .fieldStart [] ((cur.dropWhile isHws).reverse :: row) rows
    else if c = '\n' then
      csvRun rest .fieldStart [] [] (((cur.dropWhile isHws).reverse :: row).reverse :: rows)
    else csvRun rest .unquoted (c :: cur) row rows
  | c :: rest, .quoted, cur, row, rows =>
    if c = '"' then csvRun rest .afterQuote cur row rows
    else csvRun rest .quoted (c :: cur) row rows
  | c :: rest, .afterQuote, cur, row, rows =>
    if c = '"' then csvRun rest .quoted ('"' :: cur) row rows
    else if c = ',' then csvRun rest .fieldStart [] (cur.reverse :: row) rows
    else if c = '\n' then csvRun rest .fieldStart [] [] ((cur.reverse :: row).reverse :: rows)
    else csvRun rest .afterQuote cur row rows

/-- Parsed rows at character level, with empty lines skipped
(`skip_empty_lines`: an empty line reads as a single empty field). -/
def csvRowsRaw (l : List Char) : List (List (List Char)) :=
  (csvRun l .fieldStart [] [] []).filter (fun r => r ≠ [([] : List Char)])

def csvParseRaw (s : String) : List (List String) :=
  (csvRowsRaw s.data).map (fun r => r.map String.mk)

/-- Output quoting: needed when the field holds a delimiter, quote or record
delimiter. -/
def needsQuote (f : List Char) : Bool :=
  f.any (fun c => c = ',' || c = '"' || c = '\n' || c = '\r')

def escapeQuotes : List Char → List Char
  | [] => []
  | c :: rest => if c = '"' then '"' :: '"' :: escapeQuotes rest else c :: escapeQuotes rest

def stringifyField (f : List Char) : List Char :=
  if needsQuote f then '"' :: (escapeQuotes f ++ ['"']) else f

def stringifyRowChars : List (List Char) → List Char
  | [] => []
  | [f] => stringifyField f
  | f :: rest => stringifyField f ++ ',' :: stringifyRowChars rest

def csvStringifyChars (rows : List (List (List Char))) : List Char :=
  (rows.map (fun r => stringifyRowChars r ++ ['\n'])).flatten

/-- What a written field reads back as: quoted fields round-trip verbatim,
unquoted fields lose surrounding horizontal whitespace to `trim`. -/
def postField (f : List Char) : List Char :=
  if needsQuote f then f
  else ((f.dropWhile isHws).reverse.dropWhile isHws).reverse

def postFieldStr (s : String) : String := String.mk (postField s.data)

/-! ### Round-trip of the CSV writer through the CSV reader -/

theorem csvRun_skip_ws (w : List Char) (hw : ∀ c ∈ w, isHws c = true) (l cur : List Char)
    (row : List (List Char)) (rows : List (List (List Char))) :
    csvRun (w ++ l) .fieldStart cur row rows = csvRun l .fieldStart cur row rows := by
  induction w with
  | nil => rfl
  | cons c w' ih =>
    rw [List.cons_append]
    show csvRun (c :: (w' ++ l)) .fieldStart cur row rows = _
    rw [csvRun, if_pos (hw c (List.mem_cons_self _ _))]
    exact ih (fun x hx => hw x (List.mem_cons_of_mem _ hx))

theorem csvRun_unquoted_append (g : List Char)
    (hg : ∀ c ∈ g, ¬(c = ',' ∨ c = '\n')) (l cur : List Char)
    (row : List (List Char)) (rows : List (List (List Char))) :
    csvRun (g ++ l) .unquoted cur row rows
      = csvRun l .unquoted (g.reverse ++ cur) row rows := by
  induction g generalizing cur with
  | nil => rfl
  | cons c g' ih =>
    have hc := hg c (List.mem_cons_self _ _)
    rw [List.cons_append]
    show csvRun (c :: (g' ++ l)) .unquoted cur row rows = _
    rw [csvRun, if_neg (fun h => hc (Or.inl h)), if_neg (fun h => hc (Or.inr h))]
    rw [ih (fun x hx => hg x (List.mem_cons_of_mem _ hx)) (c :: cur)]
    simp [List.append_assoc]

theorem csvRun_quoted_escape (f : List Char) (l cur : List Char)
    (row : List (List Char)) (rows : List (List (List Char))) :
    csvRun (escapeQuotes f ++ '"' :: l) .quoted cur row rows
      = csvRun l .afterQuote (f.reverse ++ cur) row rows := by
  induction f generalizing cur with
  | nil =>
    show csvRun ('"' :: l) .quoted cur row rows = _
    rw [csvRun, if_pos rfl]
    simp
  | cons c f' ih =>
    by_cases hc : c = '"'
    · subst hc
      show csvRun (('"' :: '"' :: escapeQuotes f') ++ '"' :: l) .quoted cur row rows = _
      rw [List.cons_append, List.cons_append]
      rw [csvRun, if_pos rfl]
      rw [csvRun, if_pos rfl]
      rw [ih ('"' :: cur)]
      simp [List.append_assoc]
    · have hesc : escapeQuotes (c :: f') = c :: escapeQuotes f' := by
        rw [escapeQuotes, if_neg hc]
      rw [hesc, List.cons_append]
      rw [csvRun, if_neg hc]
      rw [ih (c :: cur)]
      simp [List.append_assoc]

theorem not_mem_of_not_needsQuote {f : List Char} (h : needsQuote f = false) :
    ∀ c ∈ f, ¬(c = ',' || c = '"' || c = '\n' || c = '\r') = true := by
  intro c hc
  unfold needsQuote at h
  rw [List.any_eq_false] at h
  exact fun hcc => absurd hcc (by simpa using h c hc)

theorem csvRun_field_comma (f : List Char) (l : List Char)
    (row : List (List Char)) (rows : List (List (List Char))) :
    csvRun (stringifyField f ++ ',' :: l) .fieldStart [] row rows
      = csvRun l .fieldStart [] (postField f :: row) rows := by
  by_cases hq : needsQuote f
  · rw [stringifyField, if_pos hq, postField, if_pos hq]
    rw [List.cons_append, csvRun, if_neg (by decide), if_pos rfl]
    have hassoc : (escapeQuotes f ++ ['"']) ++ ',' :: l = escapeQuotes f ++ '"' :: ',' :: l := by
      simp
    rw [hassoc, csvRun_quoted_escape]
    rw [csvRun, if_neg (by decide), if_pos rfl]
    simp
  · have hspec := not_mem_of_not_needsQuote (by simpa using hq)
    rw [stringifyField, if_neg hq, postField, if_neg hq]
    have hsplit : f = f.takeWhile isHws ++ f.dropWhile isHws := (List.takeWhile_append_dropWhile _ _).symm
    have hws : ∀ c ∈ f.takeWhile isHws, isHws c = true := fun c hc => List.mem_takeWhile_imp hc
    conv_lhs => rw [hsplit]
    rw [List.append_assoc, csvRun_skip_ws _ hws]
    cases hg : f.dropWhile isHws with
    | nil =>
      show csvRun (',' :: l) .fieldStart [] row rows = _
      rw [csvRun, if_neg (by decide), if_neg (by decide), if_pos rfl]
      rfl
    | cons c g' =>
      have hcmem : c ∈ f := (List.dropWhile_sublist _).mem (hg ▸ List.mem_cons_self _ _)
      have hcs := hspec c hcmem
      have hcw : ¬ isHws c = true := by
        have := List.head?_dropWhile_not isHws f
        rw [hg] at this
        simpa using this
      rw [List.cons_append]
      show csvRun (c :: (g' ++ ',' :: l)) .fieldStart [] row rows = _
      rw [csvRun, if_neg hcw, if_neg (by simp at hcs; tauto), if_neg (by simp at hcs; tauto),
        if_neg (by simp at hcs; tauto)]
      have hg' : ∀ x ∈ g', ¬(x = ',' ∨ x = '\n') := by
        intro x hx
        have hxmem : x ∈ f := (List.dropWhile_sublist _).mem (hg ▸ List.mem_cons_of_mem _ hx)
        have := hspec x hxmem
        simp at this
        tauto
      rw [csvRun_unquoted_append g' hg' (',' :: l) [c]]
      rw [csvRun, if_pos rfl]
      rw [List.reverse_cons]

theorem csvRun_field_newline (f : List Char) (l : List Char)
    (row : List (List Char)) (rows : List (List (List Char))) :
    csvRun (stringifyField f ++ '\n' :: l) .fieldStart [] row rows
      = csvRun l .fieldStart [] [] ((postField f :: row).reverse :: rows) := by
  by_cases hq : needsQuote f
  · rw [stringifyField, if_pos hq, postField, if_pos hq]
    rw [List.cons_append, csvRun, if_neg (by decide), if_pos rfl]
    have hassoc : (escapeQuotes f ++ ['"']) ++ '\n' :: l = escapeQuotes f ++ '"' :: '\n' :: l := by
      simp
    rw [hassoc, csvRun_quoted_escape]
    rw [csvRun, if_neg (by decide), if_neg (by decide), if_pos rfl]
    simp
  · have hspec := not_mem_of_not_needsQuote (by simpa using hq)
    rw [stringifyField, if_neg hq, postField, if_neg hq]
    have hsplit : f = f.takeWhile isHws ++ f.dropWhile isHws := (List.takeWhile_append_dropWhile _ _).symm
    have hws : ∀ c ∈ f.takeWhile isHws, isHws c = true := fun c hc => List.mem_takeWhile_imp hc
    conv_lhs => rw [hsplit]
    rw [List.append_assoc, csvRun_skip_ws _ hws]
    cases hg : f.dropWhile isHws with
    | nil =>
      show csvRun ('\n' :: l) .fieldStart [] row rows = _
      rw [csvRun, if_neg (by decide), if_neg (by decide), if_neg (by decide), if_pos rfl]
      rfl
    | cons c g' =>
      have hcmem : c ∈ f := (List.dropWhile_sublist _).mem (hg ▸ List.mem_cons_self _ _)
      have hcs := hspec c hcmem
      have hcw : ¬ isHws c = true := by
        have := List.head?_dropWhile_not isHws f
        rw [hg] at this
        simpa using this
      rw [List.cons_append]
      show csvRun (c :: (g' ++ '\n' :: l)) .fieldStart [] row rows = _
      rw [csvRun, if_neg hcw, if_neg (by simp at hcs; tauto), if_neg (by simp at hcs; tauto),
        if_neg (by simp at hcs; tauto)]
      have hg' : ∀ x ∈ g', ¬(x = ',' ∨ x = '\n') := by
        intro x hx
        have hxmem : x ∈ f := (List.dropWhile_sublist _).mem (hg ▸ List.mem_cons_of_mem _ hx)
        have := hspec x hxmem
        simp at this
        tauto
      rw [csvRun_unquoted_append g' hg' ('\n' :: l) [c]]
      rw [csvRun, if_neg (by decide), if_pos rfl]
      simp

theorem csvRun_row (r : List (List Char)) (hne : r ≠ []) (l : List Char)
    (row : List (List Char)) (rows : List (List (List Char))) :
    csvRun (stringifyRowChars r ++ '\n' :: l) .fieldStart [] row rows
      = csvRun l .fieldStart [] [] ((row.reverse ++ r.map postField) :: rows) := by
  induction r generalizing row with
  | nil => exact absurd rfl hne
  | cons f r' ih =>
    cases r' with
    | nil =>
      show csvRun (stringifyField f ++ '\n' :: l) .fieldStart [] row rows = _
      rw [csvRun_field_newline]
      congr 1
      simp
    | cons f2 r'' =>
      show csvRun ((stringifyField f ++ ',' :: stringifyRowChars (f2 :: r'')) ++ '\n' :: l)
          .fieldStart [] row rows = _
      rw [List.append_assoc, List.cons_append, csvRun_field_comma,
        ih (by simp) (postField f :: row)]
      congr 2
      simp

theorem csvRun_rows (rows : List (List (List Char))) (h : ∀ r ∈ rows, r ≠ [])
    (acc : List (List (List Char))) :
    csvRun (csvStringifyChars rows) .fieldStart [] [] acc
      = acc.reverse ++ rows.map (fun r => r.map postField) := by
  induction rows generalizing acc with
  | nil => simp [csvStringifyChars, csvRun]
  | cons r rows' ih =>
    have hstep : csvStringifyChars (r :: rows')
        = stringifyRowChars r ++ '\n' :: csvStringifyChars rows' := by
      show (stringifyRowChars r ++ ['\n']) ++ csvStringifyChars rows' = _
      simp
    rw [hstep, csvRun_row r (h r (List.mem_cons_self _ _)) _ []]
    rw [ih (fun x hx => h x (List.mem_cons_of_mem _ hx))]
    simp

/-- Writing rows (each with at least two fields) and re-reading them gives
the rows back with each field post-processed by `postField`. -/
theorem csvRowsRaw_stringify (rows : List (List (List Char)))
    (h2 : ∀ r ∈ rows, 2 ≤ r.length) :
    csvRowsRaw (csvStringifyChars rows) = rows.map (fun r => r.map postField) := by
  unfold csvRowsRaw
  rw [csvRun_rows rows (fun r hr => by
    have := h2 r hr
    intro hnil
    rw [hnil] at this
    simp at this) []]
  rw [List.reverse_nil, List.nil_append]
  refine List.filter_eq_self.mpr ?_
  intro x hx
  obtain ⟨r, hr, rfl⟩ := List.mem_map.mp hx
  simp only [decide_eq_true_eq]
  intro hbad
  have hlen := congrArg List.length hbad
  simp at hlen
  have := h2 r hr
  omega

/-- The string-level round trip. -/
theorem csvParseRaw_stringify (rows : List (List String))
    (h2 : ∀ r ∈ rows, 2 ≤ r.length) :
    csvParseRaw (String.mk (csvStringifyChars (rows.map (fun r => r.map String.data))))
      = rows.map (fun r => r.map postFieldStr) := by
  unfold csvParseRaw
  show (csvRowsRaw (csvStringifyChars (rows.map (fun r => r.map String.data)))).map
      (fun r => r.map String.mk) = _
  rw [csvRowsRaw_stringify _ (by
    intro r hr
    obtain ⟨r0, hr0, rfl⟩ := List.mem_map.mp hr
    simpa using h2 r0 hr0)]
  simp [List.map_map, Function.comp, postFieldStr]

/-! ### parseCSV / initializeLeads / toCSV (repository code) -/

structure Lead where
  website : String
  company : Option String
  name : Option String
  extraFields : List (String × String)
deriving Repr, DecidableEq

def websiteAliases : List String :=
  ["website", "url", "domain", "site", "company_url", "company_website",
   "companyurl", "companywebsite", "web", "homepage"]

/-- `c.toLowerCase().replace(/[_\s-]/g, '')`. -/
def normalizeColumn (c : String) : String :=
  String.mk ((c.data.map Char.toLower).filter
    (fun ch => !(ch = '_' || ch = '-' || jsIsWs ch)))

def findAlias (pairs : List (String × String)) : List String → Option String
  | [] => none
  | a :: as =>
    match pairs.find? (fun p => p.2 = a) with
    | some p => some p.1
    | none => findAlias pairs as

def findWebsiteColumn (columns : List String) : Option String :=
  findAlias (columns.zip (columns.map normalizeColumn)) websiteAliases

def buildLead (header row : List String) (websiteKey : String) : Lead :=
  let record := header.zip row
  { website := (record.lookup websiteKey).getD ""
    company := record.lookup "company"
    name := record.lookup "name"
    extraFields := record.filter
      (fun p => p.1 ≠ websiteKey && p.1 ≠ "company" && p.1 ≠ "name" && p.2 ≠ "") }

def parseCSV (csvContent : String) : Except String (List Lead) :=
  match csvParseRaw csvContent with
  | [] => .ok []
  | header :: dataRows =>
    match findWebsiteColumn header with
    | some websiteKey => .ok (dataRows.map (fun row => buildLead header row websiteKey))
    | none =>
      if dataRows.isEmpty then .ok []
      else .error ("CSV must contain a website column. Accepted names: website, url, "
        ++ "domain, site, company_url, company_website")

def initializeLeads (leads : List Lead) : List EnrichedLead :=
  leads.map (fun lead =>
    let validation := validateDomain lead.website
    { website := lead.website
      company := lead.company
      name := lead.name
      extraFields := lead.extraFields
      email := none
      icebreaker := none
      enrichmentStatus := if validation.isValid then .pending else .skipped
      errorMessage := if validation.isValid then none
        else some ("Invalid domain: " ++ (validation.error.getD "undefined"))
      domainValidation := some
        { isValid := validation.isValid
          domain := validation.domain
          tld := validation.tld
          error := validation.error } })

def enrichmentStatusStr : EnrichmentStatus → String
  | .pending => "pending"
  | .processing => "processing"
  | .completed => "completed"
  | .failed => "failed"
  | .skipped => "skipped"

/-- JS object assignment via spread: update an existing key in place, else
append. -/
def objSet (l : List (String × Option String)) (k : String) (v : Option String) :
    List (String × Option String) :=
  if l.any (fun p => p.1 = k) then l.map (fun p => if p.1 = k then (k, v) else p)
  else l ++ [(k, v)]

def objSpread (base : List (String × Option String))
    (extras : List (String × String)) : List (String × Option String) :=
  extras.foldl (fun acc p => objSet acc p.1 (some p.2)) base

/-- `{ ...rest, ...(extraFields || {}) }` for one lead: the enumerable keys of
the lead object minus `extraFields` and `domainValidation`, then the extra
fields spread over them. `email`/`icebreaker` keys exist only once assigned. -/
def flattenLead (lead : EnrichedLead) : List (String × Option String) :=
  let rest : List (String × Option String) :=
    [("website", some lead.website), ("company", lead.company), ("name", lead.name),
     ("enrichmentStatus", some (enrichmentStatusStr lead.enrichmentStatus)),
     ("errorMessage", lead.errorMessage)]
    ++ (match lead.email with | some e => [("email", some e)] | none => [])
    ++ (match lead.icebreaker with | some i => [("icebreaker", some i)] | none => [])
  objSpread rest lead.extraFields

def addKeys (acc : List String) (obj : List (String × Option String)) : List String :=
  obj.foldl (fun acc p => if acc.contains p.1 then acc else acc ++ [p.1]) acc

def enrichedColumns : List String := ["email", "icebreaker", "enrichmentStatus", "errorMessage"]

/-- Value written for a column of a flattened lead: missing and `undefined`
become the empty field. -/
def columnValue (obj : List (String × Option String)) (c : String) : String :=
  match obj.lookup c with
  | some (some v) => v
  | _ => ""

def toCSV (leads : List EnrichedLead) : String :=
  if leads.isEmpty then "" else
  let flattenedLeads := leads.map flattenLead
  let allColumns := flattenedLeads.foldl addKeys []
  let originalColumns := allColumns.filter (fun c => !enrichedColumns.contains c)
  let orderedColumns := originalColumns ++ enrichedColumns.filter (fun c => allColumns.contains c)
  let rows := flattenedLeads.map (fun obj => orderedColumns.map (columnValue obj))
  String.mk (csvStringifyChars ((orderedColumns :: rows).map (fun r => r.map String.data)))

/-- C8 counterexample input: a `notes` column whose only value is empty. -/
def cexCsv : String := "website,notes\nacme.com,"

/-- C8 counterexample: `parseCSV` drops empty extra-field values and `toCSV`
emits only columns that survive on some row, so a column all of whose values
are empty disappears from the round-trip output instead of keeping its
(empty) values. -/
theorem toCSV_roundtrip_counterexample :
    (parseCSV cexCsv).toOption.isSome = true
    ∧ ((csvParseRaw cexCsv).headD []).contains "notes" = true
    ∧ List.lookup "notes"
        ((((csvParseRaw cexCsv).headD [])).zip ((csvParseRaw cexCsv).getD 1 []))
        = some ""
    ∧ ((csvParseRaw (toCSV (initializeLeads
        ((parseCSV cexCsv).toOption.getD [])))).headD []).contains "notes" = false := by
  refine ⟨?_, ?_, ?_, ?_⟩ <;> decide

/-! ### Association-list lemmas for the round trip -/

theorem lookup_cons_ne {β : Type} {k k' : String} {b : β} {es : List (String × β)}
    (h : k' ≠ k) : ((k, b) :: es).lookup k' = es.lookup k' := by
  rw [List.lookup_cons]
  simp [beq_false_of_ne h]

theorem mem_of_lookup {l : List (String × String)} {k v : String}
    (h : List.lookup k l = some v) : (k, v) ∈ l := by
  induction l with
  | nil => simp [List.lookup] at h
  | cons p l ih =>
    obtain ⟨k', v'⟩ := p
    by_cases hk : k = k'
    · subst hk
      rw [List.lookup_cons_self] at h
      injection h with h
      subst h
      exact List.mem_cons_self _ _
    · rw [lookup_cons_ne hk] at h
      exact List.mem_cons_of_mem _ (ih h)

theorem lookup_eq_of_mem_nodup {l : List (String × String)} {k v : String}
    (hnodup : (l.map Prod.fst).Nodup) (h : (k, v) ∈ l) : List.lookup k l = some v := by
  induction l with
  | nil => simp at h
  | cons p l ih =>
    obtain ⟨k', v'⟩ := p
    simp only [List.map_cons, List.nodup_cons] at hnodup
    rcases List.mem_cons.mp h with heq | hmem
    · simp only [Prod.mk.injEq] at heq
      obtain ⟨rfl, rfl⟩ := heq
      exact List.lookup_cons_self
    · have hk : k ≠ k' := by
        intro hkk
        exact hnodup.1 (hkk ▸ List.mem_map_of_mem Prod.fst hmem)
      rw [lookup_cons_ne hk]
      exact ih hnodup.2 hmem

theorem lookup_eq_none_of_not_mem_keys {β : Type} {l : List (String × β)} {k : String}
    (h : ¬ k ∈ l.map Prod.fst) : List.lookup k l = none := by
  refine List.lookup_eq_none_iff.mpr ?_
  intro p hp
  simp only [bne_iff_ne, ne_eq]
  intro hk
  exact h (hk ▸ List.mem_map_of_mem Prod.fst hp)

theorem lookup_map_objSet (l : List (String × Option String)) (k : String) (v : Option String)
    (h : l.any (fun p => p.1 = k) = true) :
    List.lookup k (l.map (fun p => if p.1 = k then (k, v) else p)) = some v := by
  induction l with
  | nil => simp at h
  | cons p l ih =>
    obtain ⟨k', v'⟩ := p
    by_cases hk : k' = k
    · rw [List.map_cons]
      rw [show (if (k', v').1 = k then (k, v) else (k', v')) = (k, v) from by simp [hk]]
      exact List.lookup_cons_self
    · rw [List.map_cons]
      rw [show (if (k', v').1 = k then (k, v) else (k', v')) = (k', v') from by simp [hk]]
      rw [lookup_cons_ne (fun hkk => hk hkk.symm)]
      apply ih
      simpa [hk] using h

theorem lookup_append_single (l : List (String × Option String)) (k : String) (v : Option String)
    (h : l.any (fun p => p.1 = k) = false) :
    List.lookup k (l ++ [(k, v)]) = some v := by
  induction l with
  | nil => rw [List.nil_append]; exact List.lookup_cons_self
  | cons p l ih =>
    obtain ⟨k', v'⟩ := p
    simp only [List.any_cons, Bool.or_eq_false_iff, decide_eq_false_iff_not] at h
    rw [List.cons_append, lookup_cons_ne (fun hkk => h.1 hkk.symm)]
    exact ih (by simpa using h.2)

theorem lookup_objSet_self (l : List (String × Option String)) (k : String) (v : Option String) :
    List.lookup k (objSet l k v) = some v := by
  rw [objSet]
  by_cases h : l.any (fun p => p.1 = k)
  · rw [if_pos h]
    exact lookup_map_objSet l k v h
  · rw [if_neg h]
    exact lookup_append_single l k v (by simp only [Bool.not_eq_true] at h; exact h)

theorem lookup_objSet_other (l : List (String × Option String)) (k k' : String)
    (v : Option String) (hne : k' ≠ k) :
    List.lookup k' (objSet l k v) = List.lookup k' l := by
  rw [objSet]
  by_cases h : l.any (fun p => p.1 = k)
  · rw [if_pos h]
    clear h
    induction l with
    | nil => rfl
    | cons p l ih =>
      obtain ⟨a, b⟩ := p
      by_cases ha : a = k
      · rw [List.map_cons]
        rw [show (if (a, b).1 = k then (k, v) else (a, b)) = (k, v) from by simp [ha]]
        rw [lookup_cons_ne hne, lookup_cons_ne (fun hk => hne (hk.trans ha)), ih]
      · rw [List.map_cons]
        rw [show (if (a, b).1 = k then (k, v) else (a, b)) = (a, b) from by simp [ha]]
        by_cases hka : k' = a
        · subst hka
          rw [List.lookup_cons_self, List.lookup_cons_self]
        · rw [lookup_cons_ne hka, lookup_cons_ne hka, ih]
  · rw [if_neg h]
    clear h
    induction l with
    | nil => rw [List.nil_append, lookup_cons_ne hne]
    | cons p l ih =>
      obtain ⟨a, b⟩ := p
      by_cases hka : k' = a
      · subst hka
        rw [List.cons_append, List.lookup_cons_self, List.lookup_cons_self]
      · rw [List.cons_append, lookup_cons_ne hka, lookup_cons_ne hka, ih]

theorem objSpread_cons (base : List (String × Option String)) (p : String × String)
    (extras : List (String × String)) :
    objSpread base (p :: extras) = objSpread (objSet base p.1 (some p.2)) extras := rfl

theorem lookup_objSpread_not_mem (extras : List (String × String))
    (base : List (String × Option String)) (k : String)
    (h : ∀ p ∈ extras, p.1 ≠ k) :
    List.lookup k (objSpread base extras) = List.lookup k base := by
  induction extras generalizing base with
  | nil => rfl
  | cons p extras ih =>
    rw [objSpread_cons, ih _ (fun q hq => h q (List.mem_cons_of_mem _ hq)),
      lookup_objSet_other _ _ _ _ (Ne.symm (h p (List.mem_cons_self _ _)))]

theorem lookup_objSpread_mem (extras : List (String × String))
    (base : List (String × Option String)) (k v : String)
    (hnodup : (extras.map Prod.fst).Nodup) (hmem : (k, v) ∈ extras) :
    List.lookup k (objSpread base extras) = some (some v) := by
  induction extras generalizing base with
  | nil => simp at hmem
  | cons p extras ih =>
    simp only [List.map_cons, List.nodup_cons] at hnodup
    rw [objSpread_cons]
    rcases List.mem_cons.mp hmem with heq | hmem'
    · obtain rfl := heq.symm
      have hknotin : ¬ k ∈ extras.map Prod.fst := by simpa using hnodup.1
      rw [lookup_objSpread_not_mem _ _ _
        (fun q hq hqk => hknotin (by rw [← hqk]; exact List.mem_map_of_mem Prod.fst hq))]
      exact lookup_objSet_self _ _ _
    · exact ih _ hnodup.2 hmem'

theorem keys_map_objSet (l : List (String × Option String)) (k : String) (v : Option String) :
    (l.map (fun p => if p.1 = k then (k, v) else p)).map Prod.fst = l.map Prod.fst := by
  rw [List.map_map]
  apply List.map_congr_left
  intro p _
  by_cases hp : p.1 = k <;> simp [hp]

theorem mem_keys_objSet_of_mem (l : List (String × Option String)) (k : String)
    (v : Option String) (k' : String) (h : k' ∈ l.map Prod.fst) :
    k' ∈ (objSet l k v).map Prod.fst := by
  rw [objSet]
  by_cases hany : l.any (fun p => p.1 = k)
  · rw [if_pos hany, keys_map_objSet]; exact h
  · rw [if_neg hany]; simp [h]

theorem mem_keys_objSet_self (l : List (String × Option String)) (k : String)
    (v : Option String) : k ∈ (objSet l k v).map Prod.fst := by
  rw [objSet]
  by_cases hany : l.any (fun p => p.1 = k)
  · rw [if_pos hany, keys_map_objSet]
    obtain ⟨p, hp, hpk⟩ := List.any_eq_true.mp hany
    exact (by simpa using hpk : p.1 = k) ▸ List.mem_map_of_mem Prod.fst hp
  · rw [if_neg hany]; simp

theorem mem_keys_objSet_cases (l : List (String × Option String)) (k : String)
    (v : Option String) (k' : String) (h : k' ∈ (objSet l k v).map Prod.fst) :
    k' ∈ l.map Prod.fst ∨ k' = k := by
  rw [objSet] at h
  by_cases hany : l.any (fun p => p.1 = k)
  · rw [if_pos hany, keys_map_objSet] at h; exact Or.inl h
  · rw [if_neg hany] at h
    simpa using h

theorem mem_keys_objSpread_of_base (extras : List (String × String))
    (base : List (String × Option String)) (k' : String)
    (h : k' ∈ base.map Prod.fst) : k' ∈ (objSpread base extras).map Prod.fst := by
  induction extras generalizing base with
  | nil => exact h
  | cons p extras ih =>
    rw [objSpread_cons]
    exact ih _ (mem_keys_objSet_of_mem _ _ _ _ h)

theorem mem_keys_objSpread_of_extra (extras : List (String × String))
    (base : List (String × Option String)) (k v : String)
    (hmem : (k, v) ∈ extras) : k ∈ (objSpread base extras).map Prod.fst := by
  induction extras generalizing base with
  | nil => simp at hmem
  | cons p extras ih =>
    rw [objSpread_cons]
    rcases List.mem_cons.mp hmem with heq | hmem'
    · obtain rfl := heq.symm
      exact mem_keys_objSpread_of_base _ _ _ (mem_keys_objSet_self _ _ _)
    · exact ih _ hmem'

theorem mem_keys_objSpread_cases (extras : List (String × String))
    (base : List (String × Option String)) (k' : String)
    (h : k' ∈ (objSpread base extras).map Prod.fst) :
    k' ∈ base.map Prod.fst ∨ k' ∈ extras.map Prod.fst := by
  induction extras generalizing base with
  | nil => exact Or.inl h
  | cons p extras ih =>
    rw [objSpread_cons] at h
    rcases ih _ h with hb | he
    · rcases mem_keys_objSet_cases _ _ _ _ hb with hb' | rfl
      · exact Or.inl hb'
      · exact Or.inr (by simp)
    · exact Or.inr (List.mem_cons_of_mem _ he)

/-! ### Column accumulation in `toCSV` -/

theorem addKeys_cons (acc : List String) (p : String × Option String)
    (obj : List (String × Option String)) :
    addKeys acc (p :: obj) = addKeys (if acc.contains p.1 then acc else acc ++ [p.1]) obj := rfl

theorem mem_addKeys (acc : List String) (obj : List (String × Option String)) (c : String) :
    c ∈ addKeys acc obj ↔ c ∈ acc ∨ c ∈ obj.map Prod.fst := by
  induction obj generalizing acc with
  | nil => simp [addKeys]
  | cons p obj ih =>
    rw [addKeys_cons, ih]
    by_cases h : acc.contains p.1
    · rw [if_pos h]
      have hmem : p.1 ∈ acc := by simpa using h
      simp only [List.map_cons, List.mem_cons]
      constructor
      · tauto
      · rintro (hc | rfl | hc) <;> tauto
    · rw [if_neg h]
      simp only [List.mem_append, List.mem_singleton, List.map_cons, List.mem_cons]
      tauto

theorem nodup_addKeys (acc : List String) (obj : List (String × Option String))
    (h : acc.Nodup) : (addKeys acc obj).Nodup := by
  induction obj generalizing acc with
  | nil => exact h
  | cons p obj ih =>
    rw [addKeys_cons]
    by_cases hc : acc.contains p.1
    · rw [if_pos hc]; exact ih _ h
    · rw [if_neg hc]
      refine ih _ ?_
      have : ¬ p.1 ∈ acc := by simpa using hc
      simp [List.nodup_append, h, this]

theorem mem_foldl_addKeys (objs : List (List (String × Option String)))
    (acc : List String) (c : String) :
    c ∈ objs.foldl addKeys acc ↔ c ∈ acc ∨ ∃ obj ∈ objs, c ∈ obj.map Prod.fst := by
  induction objs generalizing acc with
  | nil => simp
  | cons obj objs ih =>
    rw [List.foldl_cons, ih, mem_addKeys]
    simp only [List.mem_cons]
    constructor
    · rintro ((hc | hc) | ⟨o, ho, hco⟩)
      · exact Or.inl hc
      · exact Or.inr ⟨obj, Or.inl rfl, hc⟩
      · exact Or.inr ⟨o, Or.inr ho, hco⟩
    · rintro (hc | ⟨o, (rfl | ho), hco⟩)
      · exact Or.inl (Or.inl hc)
      · exact Or.inl (Or.inr hco)
      · exact Or.inr ⟨o, ho, hco⟩

theorem nodup_foldl_addKeys (objs : List (List (String × Option String)))
    (acc : List String) (h : acc.Nodup) : (objs.foldl addKeys acc).Nodup := by
  induction objs generalizing acc with
  | nil => exact h
  | cons obj objs ih => exact ih _ (nodup_addKeys _ _ h)

/-- The column set of `toCSV`, named for reuse. -/
def allColumnsOf (leads : List EnrichedLead) : List String :=
  (leads.map flattenLead).foldl addKeys []

/-- The ordered output columns of `toCSV`, named for reuse. -/
def orderedColumnsOf (leads : List EnrichedLead) : List String :=
  (allColumnsOf leads).filter (fun c => !enrichedColumns.contains c)
    ++ enrichedColumns.filter (fun c => (allColumnsOf leads).contains c)

theorem toCSV_eq (leads : List EnrichedLead) (h : leads.isEmpty = false) :
    toCSV leads = String.mk (csvStringifyChars (List.map (fun r => r.map String.data)
      (orderedColumnsOf leads ::
        (leads.map flattenLead).map
          (fun obj => (orderedColumnsOf leads).map (columnValue obj))))) := by
  rw [toCSV, if_neg (by simp [h])]
  rfl

theorem mem_orderedColumnsOf (leads : List EnrichedLead) (c : String) :
    c ∈ orderedColumnsOf leads ↔ c ∈ allColumnsOf leads := by
  by_cases he : c ∈ enrichedColumns <;> simp [orderedColumnsOf, he]

theorem nodup_orderedColumnsOf (leads : List EnrichedLead) :
    (orderedColumnsOf leads).Nodup := by
  rw [orderedColumnsOf]
  rw [List.nodup_append]
  refine ⟨List.Nodup.filter _ (nodup_foldl_addKeys _ _ List.nodup_nil),
    List.Nodup.filter _ (by decide), ?_⟩
  intro x hx hx'
  have h1 := (List.mem_filter.mp hx).2
  have h2 := (List.mem_filter.mp hx').1
  simp at h1
  exact h1 h2

theorem two_le_length_of_mem_ne {l : List String} {a b : String}
    (ha : a ∈ l) (hb : b ∈ l) (hab : a ≠ b) : 2 ≤ l.length := by
  induction l with
  | nil => simp at ha
  | cons x l ih =>
    rcases List.mem_cons.mp ha with rfl | ha'
    · rcases List.mem_cons.mp hb with rfl | hb'
      · exact absurd rfl hab
      · have := List.length_pos.mpr (List.ne_nil_of_mem hb')
        simp only [List.length_cons]
        omega
    · have := List.length_pos.mpr (List.ne_nil_of_mem ha')
      simp only [List.length_cons]
      omega

/-! ### Per-lead facts about `flattenLead` after `initializeLeads` -/

theorem flattenLead_eq (el : EnrichedLead) (hem : el.email = none)
    (hic : el.icebreaker = none) :
    flattenLead el = objSpread
      [("website", some el.website), ("company", el.company), ("name", el.name),
       ("enrichmentStatus", some (enrichmentStatusStr el.enrichmentStatus)),
       ("errorMessage", el.errorMessage)] el.extraFields := by
  rw [flattenLead, hem, hic]
  simp

theorem keys_flattenLead_base (el : EnrichedLead) (hem : el.email = none)
    (hic : el.icebreaker = none) (k : String)
    (hk : k ∈ ["website", "company", "name", "enrichmentStatus", "errorMessage"]) :
    k ∈ (flattenLead el).map Prod.fst := by
  rw [flattenLead_eq el hem hic]
  apply mem_keys_objSpread_of_base
  fin_cases hk <;> simp

theorem keys_flattenLead_extra (el : EnrichedLead) (hem : el.email = none)
    (hic : el.icebreaker = none) (k v : String) (hkv : (k, v) ∈ el.extraFields) :
    k ∈ (flattenLead el).map Prod.fst := by
  rw [flattenLead_eq el hem hic]
  exact mem_keys_objSpread_of_extra _ _ _ _ hkv

theorem keys_flattenLead_cases (el : EnrichedLead) (hem : el.email = none)
    (hic : el.icebreaker = none) (k : String) (hk : k ∈ (flattenLead el).map Prod.fst) :
    k ∈ ["website", "company", "name", "enrichmentStatus", "errorMessage"]
      ∨ k ∈ el.extraFields.map Prod.fst := by
  rw [flattenLead_eq el hem hic] at hk
  rcases mem_keys_objSpread_cases _ _ _ hk with hb | he
  · left; simpa using hb
  · right; exact he

theorem lookup_zip_map (l : List String) (f : String → String) (c : String) (hc : c ∈ l) :
    List.lookup c (l.zip (l.map f)) = some (f c) := by
  induction l with
  | nil => simp at hc
  | cons a l ih =>
    rw [List.map_cons, List.zip_cons_cons]
    by_cases hca : c = a
    · subst hca
      exact List.lookup_cons_self
    · rw [lookup_cons_ne hca]
      exact ih ((List.mem_cons.mp hc).resolve_left hca)

theorem lookup_zip_isSome (l : List String) (c : String) (hc : c ∈ l) :
    ∀ r : List String, r.length = l.length → ∃ v, List.lookup c (l.zip r) = some v := by
  induction l with
  | nil => simp at hc
  | cons a l ih =>
    intro r hlen
    cases r with
    | nil => simp at hlen
    | cons b r =>
      rw [List.zip_cons_cons]
      by_cases hca : c = a
      · exact ⟨b, by subst hca; exact List.lookup_cons_self⟩
      · obtain ⟨v, hv⟩ := ih ((List.mem_cons.mp hc).resolve_left hca) r (by simpa using hlen)
        exact ⟨v, by rw [lookup_cons_ne hca]; exact hv⟩

/-- What one output cell holds: for a lead built by `buildLead`/`initializeLeads`
from row `r`, the value written under an original column `c` is exactly the
input cell of `r` under `c`. -/
theorem columnValue_flattenLead (header r : List String) (el : EnrichedLead)
    (hnodup : header.Nodup) (hlen : r.length = header.length)
    (hnocollide : ∀ c ∈ header, ¬ c ∈ enrichedColumns)
    (hw : el.website = (List.lookup "website" (header.zip r)).getD "")
    (hco : el.company = List.lookup "company" (header.zip r))
    (hn : el.name = List.lookup "name" (header.zip r))
    (hx : el.extraFields = (header.zip r).filter
      (fun p => p.1 ≠ "website" && p.1 ≠ "company" && p.1 ≠ "name" && p.2 ≠ ""))
    (hem : el.email = none) (hic : el.icebreaker = none)
    (c : String) (hc : c ∈ header) (v : String)
    (hv : List.lookup c (header.zip r) = some v) :
    columnValue (flattenLead el) c = v := by
  have hzipkeys : (header.zip r).map Prod.fst = header :=
    List.map_fst_zip _ _ (le_of_eq hlen.symm)
  have hzipnodup : ((header.zip r).map Prod.fst).Nodup := by
    rw [hzipkeys]; exact hnodup
  have hxnodup : (el.extraFields.map Prod.fst).Nodup := by
    rw [hx]
    exact List.Nodup.sublist (List.Sublist.map Prod.fst (List.filter_sublist _)) hzipnodup
  rw [columnValue, flattenLead_eq el hem hic]
  by_cases hcw : c = "website"
  · subst hcw
    rw [lookup_objSpread_not_mem _ _ _ (by
      intro p hp
      rw [hx] at hp
      have := List.of_mem_filter hp
      simp only [Bool.and_eq_true, decide_eq_true_eq] at this
      exact this.1.1.1)]
    rw [List.lookup_cons_self, hw, hv]
    rfl
  · by_cases hcc : c = "company"
    · subst hcc
      rw [lookup_objSpread_not_mem _ _ _ (by
        intro p hp
        rw [hx] at hp
        have := List.of_mem_filter hp
        simp only [Bool.and_eq_true, decide_eq_true_eq] at this
        exact this.1.1.2)]
      rw [lookup_cons_ne (by decide), List.lookup_cons_self, hco, hv]
    · by_cases hcn : c = "name"
      · subst hcn
        rw [lookup_objSpread_not_mem _ _ _ (by
          intro p hp
          rw [hx] at hp
          have := List.of_mem_filter hp
          simp only [Bool.and_eq_true, decide_eq_true_eq] at this
          exact this.1.2)]
        rw [lookup_cons_ne (by decide), lookup_cons_ne (by decide),
          List.lookup_cons_self, hn, hv]
      · have hcenr := hnocollide c hc
        have hces : c ≠ "enrichmentStatus" := fun h => hcenr (by rw [h]; decide)
        have hcem : c ≠ "errorMessage" := fun h => hcenr (by rw [h]; decide)
        by_cases hvv : v = ""
        · subst hvv
          rw [lookup_objSpread_not_mem _ _ _ (by
            intro p hp hpc
            rw [hx] at hp
            have hmem := List.mem_of_mem_filter hp
            have hcond := List.of_mem_filter hp
            simp only [Bool.and_eq_true, decide_eq_true_eq] at hcond
            have hlk : List.lookup c (header.zip r) = some p.2 := by
              refine lookup_eq_of_mem_nodup hzipnodup ?_
              have : p = (c, p.2) := by rw [← hpc]
              exact this ▸ hmem
            rw [hv] at hlk
            exact hcond.2 (by injection hlk with h; rw [h]))]
          rw [lookup_eq_none_of_not_mem_keys (by
            simp only [List.map_cons, List.map_nil, List.mem_cons, List.not_mem_nil]
            push_neg
            exact ⟨hcw, hcc, hcn, hces, hcem, fun h => h⟩)]
        · rw [lookup_objSpread_mem _ _ c v hxnodup (by
            rw [hx]
            refine List.mem_filter.mpr ⟨mem_of_lookup hv, ?_⟩
            simp only [Bool.and_eq_true, decide_eq_true_eq]
            exact ⟨⟨⟨hcw, hcc⟩, hcn⟩, hvv⟩)]

/-- C8 amended-statement helper: every parsed field of the concrete
post-processing map is a fixed point on the canonical output column names. -/
theorem postFieldStr_canonical :
    postFieldStr "website" = "website" ∧ postFieldStr "company" = "company"
    ∧ postFieldStr "name" = "name"
    ∧ postFieldStr "enrichmentStatus" = "enrichmentStatus"
    ∧ postFieldStr "errorMessage" = "errorMessage" := by
  refine ⟨?_, ?_, ?_, ?_, ?_⟩ <;> decide

theorem findAlias_mem (pairs : List (String × String)) (as : List String) (x : String)
    (h : findAlias pairs as = some x) : ∃ p ∈ pairs, p.1 = x := by
  induction as with
  | nil => simp [findAlias] at h
  | cons a as ih =>
    rw [findAlias] at h
    cases hf : pairs.find? (fun p => p.2 = a) with
    | none =>
      rw [hf] at h
      exact ih h
    | some p =>
      rw [hf] at h
      injection h with h
      exact ⟨p, List.mem_of_find?_eq_some hf, h⟩

theorem forall₂_map_self {α β : Type} {R : α → β → Prop} {l : List α} {f : α → β}
    (h : ∀ a ∈ l, R a (f a)) : List.Forall₂ R l (l.map f) := by
  induction l with
  | nil => simp
  | cons a l ih =>
    rw [List.map_cons]
    exact List.Forall₂.cons (h a (List.mem_cons_self _ _))
      (ih (fun x hx => h x (List.mem_cons_of_mem _ hx)))

theorem columnValue_initLead (header r : List String)
    (hnodup : header.Nodup) (hlen : r.length = header.length)
    (hnocollide : ∀ c ∈ header, ¬ c ∈ enrichedColumns)
    (c : String) (hc : c ∈ header) (v : String)
    (hv : List.lookup c (header.zip r) = some v)
    (el : EnrichedLead) (hel : el ∈ initializeLeads [buildLead header r "website"]) :
    columnValue (flattenLead el) c = v := by
  rw [initializeLeads] at hel
  simp only [List.map_cons, List.map_nil, List.mem_singleton] at hel
  subst hel
  exact columnValue_flattenLead header r _ hnodup hlen hnocollide rfl rfl rfl rfl rfl rfl
    c hc v hv

theorem roundtrip_row (header r cols : List String)
    (hnodup : header.Nodup) (hlen : r.length = header.length)
    (hnocollide : ∀ c ∈ header, ¬ c ∈ enrichedColumns)
    (hcolmem : ∀ c ∈ header, c ∈ cols)
    (hpf : ∀ v ∈ r, postFieldStr v = v)
    (el : EnrichedLead) (hel : el ∈ initializeLeads [buildLead header r "website"]) :
    ∀ c ∈ header,
      List.lookup c (cols.zip ((cols.map (columnValue (flattenLead el))).map postFieldStr))
        = List.lookup c (header.zip r) := by
  intro c hc
  obtain ⟨v, hv⟩ := lookup_zip_isSome header c hc r hlen
  rw [List.map_map, lookup_zip_map _ _ _ (hcolmem c hc), hv]
  refine congrArg some ?_
  show postFieldStr (columnValue (flattenLead el) c) = v
  rw [columnValue_initLead header r hnodup hlen hnocollide c hc v hv el hel]
  exact hpf v ((List.of_mem_zip (mem_of_lookup hv)).2)

/-- C8 (amended): under explicit side conditions - the website column is
literally named `website`, header names are unique and collision-free with the
enriched output columns, every data row matches the header arity, every
non-canonical column holds a nonempty value on some row, and every parsed
field is a fixed point of the writer's post-processing (already trimmed) -
the round trip `toCSV (initializeLeads (parseCSV csv))` preserves every
original column's value on every data row. -/
theorem toCSV_roundtrip_amended
    (csv : String) (header : List String) (dataRows : List (List String))
    (hparse : csvParseRaw csv = header :: dataRows)
    (hnodup : header.Nodup)
    (hrows : dataRows ≠ [])
    (harity : ∀ r ∈ dataRows, r.length = header.length)
    (hwebsite : findWebsiteColumn header = some "website")
    (hnocollide : ∀ c ∈ header, ¬ c ∈ enrichedColumns)
    (hnonempty : ∀ c ∈ header, ¬ c ∈ ["website", "company", "name"] →
      ∃ r ∈ dataRows, List.lookup c (header.zip r) ≠ some "")
    (htrim : ∀ r ∈ csvParseRaw csv, ∀ f ∈ r, postFieldStr f = f) :
    ∃ leads outHeader outRows,
      parseCSV csv = .ok leads
      ∧ csvParseRaw (toCSV (initializeLeads leads)) = outHeader :: outRows
      ∧ List.Forall₂ (fun r outRow => ∀ c ∈ header,
          List.lookup c (outHeader.zip outRow) = List.lookup c (header.zip r))
        dataRows outRows := by
  obtain ⟨r0, hr0⟩ := List.exists_mem_of_ne_nil dataRows hrows
  set leads0 := dataRows.map (fun row => buildLead header row "website") with hleads0
  set els0 := initializeLeads leads0 with hels0
  set cols0 := orderedColumnsOf els0 with hcols0
  have hweb_mem : "website" ∈ header := by
    have h' := hwebsite
    rw [findWebsiteColumn] at h'
    obtain ⟨p, hp, hp1⟩ := findAlias_mem _ _ _ h'
    obtain ⟨a, b⟩ := p
    have ha : a = "website" := hp1
    exact ha ▸ (List.of_mem_zip hp).1
  have hobjall : ∀ obj ∈ els0.map flattenLead, ∃ rr ∈ dataRows, ∃ el, obj = flattenLead el
      ∧ el.email = none ∧ el.icebreaker = none
      ∧ el.extraFields = (header.zip rr).filter
          (fun p => p.1 ≠ "website" && p.1 ≠ "company" && p.1 ≠ "name" && p.2 ≠ "") := by
    intro obj hobj
    rw [hels0, hleads0, initializeLeads, List.map_map, List.map_map] at hobj
    obtain ⟨rr, hrr, rfl⟩ := List.mem_map.mp hobj
    exact ⟨rr, hrr, _, rfl, rfl, rfl, rfl⟩
  have hobjmem : ∀ rr ∈ dataRows, ∃ obj ∈ els0.map flattenLead, ∃ el, obj = flattenLead el
      ∧ el.email = none ∧ el.icebreaker = none
      ∧ el.extraFields = (header.zip rr).filter
          (fun p => p.1 ≠ "website" && p.1 ≠ "company" && p.1 ≠ "name" && p.2 ≠ "") := by
    intro rr hrr
    rw [hels0, hleads0, initializeLeads, List.map_map, List.map_map]
    exact ⟨_, List.mem_map_of_mem _ hrr, _, rfl, rfl, rfl, rfl⟩
  have hallmem : ∀ c, c ∈ allColumnsOf els0 ↔ ∃ obj ∈ els0.map flattenLead,
      c ∈ obj.map Prod.fst := by
    intro c
    rw [allColumnsOf, mem_foldl_addKeys]
    simp
  have hcolmem : ∀ c ∈ header, c ∈ cols0 := by
    intro c hc
    rw [hcols0, mem_orderedColumnsOf, hallmem]
    by_cases hc3 : c = "website" ∨ c = "company" ∨ c = "name"
    · obtain ⟨obj, hobjin, el, rfl, hem, hic, hx⟩ := hobjmem r0 hr0
      refine ⟨_, hobjin, keys_flattenLead_base el hem hic c ?_⟩
      rcases hc3 with rfl | rfl | rfl <;> decide
    · push_neg at hc3
      obtain ⟨hcw, hcc, hcn⟩ := hc3
      obtain ⟨rr, hrr, hlk⟩ := hnonempty c hc (by simp [hcw, hcc, hcn])
      obtain ⟨v', hv'⟩ := lookup_zip_isSome header c hc rr (harity rr hrr)
      have hvne : v' ≠ "" := fun h => hlk (h ▸ hv')
      obtain ⟨obj, hobjin, el, rfl, hem, hic, hx⟩ := hobjmem rr hrr
      refine ⟨_, hobjin, keys_flattenLead_extra el hem hic c v' ?_⟩
      rw [hx]
      refine List.mem_filter.mpr ⟨mem_of_lookup hv', ?_⟩
      simp only [Bool.and_eq_true, decide_eq_true_eq]
      exact ⟨⟨⟨hcw, hcc⟩, hcn⟩, hvne⟩
  have hwebcols : "website" ∈ cols0 := hcolmem _ hweb_mem
  have hcompcols : "company" ∈ cols0 := by
    rw [hcols0, mem_orderedColumnsOf, hallmem]
    obtain ⟨obj, hobjin, el, rfl, hem, hic, hx⟩ := hobjmem r0 hr0
    exact ⟨_, hobjin, keys_flattenLead_base el hem hic _ (by decide)⟩
  have hcolsfix : ∀ x ∈ cols0, postFieldStr x = x := by
    intro x hx
    rw [hcols0, mem_orderedColumnsOf, hallmem] at hx
    obtain ⟨obj, hobjin, hkey⟩ := hx
    obtain ⟨rr, hrr, el, rfl, hem, hic, hxf⟩ := hobjall obj hobjin
    rcases keys_flattenLead_cases el hem hic x hkey with h5 | hex
    · fin_cases h5 <;> decide
    · rw [hxf] at hex
      obtain ⟨p, hp, rfl⟩ := List.mem_map.mp hex
      have hpz := List.mem_of_mem_filter hp
      obtain ⟨a, b⟩ := p
      exact htrim header (by rw [hparse]; exact List.mem_cons_self _ _) _
        (List.of_mem_zip hpz).1
  have hmapfix : cols0.map postFieldStr = cols0 := by
    have h1 : cols0.map postFieldStr = cols0.map id :=
      List.map_congr_left (fun a ha => hcolsfix a ha)
    rw [h1, List.map_id]
  have hne0 : els0.isEmpty = false := by
    rw [hels0, hleads0, initializeLeads, List.map_map]
    rw [← Bool.not_eq_true, List.isEmpty_iff]
    simp [hrows]
  have h2 : ∀ row ∈ cols0 :: (els0.map flattenLead).map
      (fun obj => cols0.map (columnValue obj)), 2 ≤ row.length := by
    intro row hrow
    rcases List.mem_cons.mp hrow with rfl | hrow'
    · exact two_le_length_of_mem_ne hwebcols hcompcols (by decide)
    · obtain ⟨obj, hobj, rfl⟩ := List.mem_map.mp hrow'
      rw [List.length_map]
      exact two_le_length_of_mem_ne hwebcols hcompcols (by decide)
  refine ⟨leads0, cols0,
    ((els0.map flattenLead).map (fun obj => cols0.map (columnValue obj))).map
      (fun row => row.map postFieldStr), ?_, ?_, ?_⟩
  · rw [hleads0]
    simp only [parseCSV, hparse, hwebsite]
  · rw [← hels0, toCSV_eq _ hne0, ← hcols0, csvParseRaw_stringify _ h2]
    simp only [List.map_cons]
    rw [hmapfix]
  · rw [hels0, hleads0, initializeLeads]
    simp only [List.forall₂_map_right_iff]
    rw [List.forall₂_same]
    intro r hr
    exact roundtrip_row header r cols0 hnodup (harity r hr) hnocollide hcolmem
      (fun v hv => htrim r (by rw [hparse]; exact List.mem_cons_of_mem _ hr) v hv)
      _ (List.mem_cons_self _ _)

/-- C8 witness: the amended round-trip theorem applied to a concrete CSV with
one extra column holding a nonempty value. -/
theorem toCSV_roundtrip_amended_witness :
    ∃ leads outHeader outRows,
      parseCSV "website,notes\nacme.com,hello" = .ok leads
      ∧ csvParseRaw (toCSV (initializeLeads leads)) = outHeader :: outRows
      ∧ List.Forall₂ (fun r outRow => ∀ c ∈ ["website", "notes"],
          List.lookup c (outHeader.zip outRow) = List.lookup c (["website", "notes"].zip r))
        [["acme.com", "hello"]] outRows :=
  toCSV_roundtrip_amended "website,notes\nacme.com,hello" ["website", "notes"]
    [["acme.com", "hello"]] (by decide) (by decide) (by decide) (by decide) (by decide)
    (by decide) (by decide) (by decide)

end ColdEmail
